import Mathlib

/-!
Verification development for the streamlette consensus core
(`src/core.rs`, `src/msg.rs`).

The Rust code is shallowly embedded:

* `HashVal` (a 32-byte hash) and `Ed25519PK` are modelled as `Nat`.
  The canonical hash `chash` (hash of the stdcode serialization with the
  signature field blanked) is modelled as an injective encoding of the
  non-signature fields via `Nat.pair`, tagged per message kind; this is the
  standard idealization of a collision-resistant hash over distinct
  canonical serializations.
* Ed25519 signatures are idealized: a signature verifies under key `pk`
  on hash `h` exactly when it equals `Nat.pair pk h`.  No claim below
  depends on unforgeability, only on verification being a function.
* `BTreeMap` is modelled as an association list kept sorted by key by
  `alInsert` (insertion overwrites an equal key, as `BTreeMap::insert`
  does); `HashSet<(u64, Ed25519PK)>` is modelled as a list with
  membership-checked insertion (`HashSet::insert` on a present element
  leaves the set unchanged and returns `false`).
* The unbounded back-pointer walks of `get_finalized` and `lookup_len`
  are given explicit fuel `walk_fuel`, which exceeds the length of every
  `previous`-chain whenever solicit ticks strictly decrease along
  `previous` links (the invariant enforced at admission); on such states
  the fuelled functions compute exactly what the Rust loops compute.
  The `memo` table of `lookup_len` is a pure cache and is dropped.
* `u64` arithmetic: ticks never overflow in the source (they are only
  compared and copied), so they are modelled as `Nat`; the vote-weight
  sums and `total_votes * 2 / 3` are likewise pure `Nat` arithmetic as in
  the source.  `u64::MAX`, used as the diff sort sentinel, is `U64MAX`.
-/

abbrev HashVal := Nat

abbrev PubKey := Nat

/-- Idealized Ed25519 verification (`Ed25519PK::verify` in tmelcrypt):
a signature is valid for `pk` on `h` iff it is the canonical signature
`Nat.pair pk h` of `h` under `pk`. -/
def sigVerify (pk : PubKey) (h : HashVal) (sig : Nat) : Bool :=
  sig == Nat.pair pk h

/-- Canonical signature of hash `h` under key `pk` (what `Ed25519SK::sign`
produces in the idealized model). -/
def sigSign (pk : PubKey) (h : HashVal) : Nat :=
  Nat.pair pk h

/-- `Proposal` from `src/msg.rs`: nonce, tick, opaque body, source key,
detached signature.  `body : Nat` stands for the opaque byte string. -/
structure Proposal where
  nonce : Nat
  tick : Nat
  body : Nat
  source : PubKey
  signature : Nat
deriving DecidableEq

/-- `Solicit` from `src/msg.rs`. -/
structure Solicit where
  nonce : Nat
  tick : Nat
  previous : HashVal
  source : PubKey
  signature : Nat
deriving DecidableEq

/-- `Vote` from `src/msg.rs`. -/
structure Vote where
  nonce : Nat
  voting_for : HashVal
  source : PubKey
  signature : Nat
deriving DecidableEq

/-- `Proposal::chash`: hash of the serialization with the signature
blanked — injective in the non-signature fields, tagged 0. -/
def Proposal.chash (p : Proposal) : HashVal :=
  Nat.pair 0 (Nat.pair p.nonce (Nat.pair p.tick (Nat.pair p.body p.source)))

/-- `Solicit::chash`, tagged 1. -/
def Solicit.chash (s : Solicit) : HashVal :=
  Nat.pair 1 (Nat.pair s.nonce (Nat.pair s.tick (Nat.pair s.previous s.source)))

/-- `Vote::chash`, tagged 2. -/
def Vote.chash (v : Vote) : HashVal :=
  Nat.pair 2 (Nat.pair v.nonce (Nat.pair v.voting_for v.source))

/-- `Message::verify_sig` for proposals. -/
def Proposal.verify_sig (p : Proposal) : Bool :=
  sigVerify p.source p.chash p.signature

/-- `Message::verify_sig` for solicits. -/
def Solicit.verify_sig (s : Solicit) : Bool :=
  sigVerify s.source s.chash s.signature

/-- `Message::verify_sig` for votes. -/
def Vote.verify_sig (v : Vote) : Bool :=
  sigVerify v.source v.chash v.signature

/-- Association-list lookup (`BTreeMap::get`). -/
def alGet {α : Type} (k : Nat) : List (Nat × α) → Option α
  | [] => none
  | e :: rest => if e.1 = k then some e.2 else alGet k rest

/-- Association-list insertion keeping keys sorted
(`BTreeMap::insert`; an equal key is overwritten). -/
def alInsert {α : Type} (k : Nat) (v : α) : List (Nat × α) → List (Nat × α)
  | [] => [(k, v)]
  | e :: rest =>
    if k < e.1 then (k, v) :: e :: rest
    else if k = e.1 then (k, v) :: rest
    else e :: alInsert k v rest

/-- The `Core` state from `src/core.rs`.  `max_tick` (an `Arc<AtomicU64>`
in the source, the one concurrently readable field) is a plain field;
`set_max_tick` returns the updated state. -/
structure Core where
  valid_proposals : List (HashVal × Proposal)
  vote_solicits : List (HashVal × Solicit)
  votes : List (HashVal × Vote)
  tick_source : List (Nat × PubKey)
  nonce : Nat
  tick_to_leader : Nat → PubKey
  vote_map : List (PubKey × Nat)
  total_votes : Nat
  max_tick : Nat

/-- `Core::new`: collect the player votes into a map (later duplicates
overwrite, as `collect::<BTreeMap<_,_>>` does), sum the weights, start
with `max_tick = 1`. -/
def Core.new (nonce : Nat) (player_votes : List (PubKey × Nat))
    (tick_to_leader : Nat → PubKey) : Core :=
  let vote_map := player_votes.foldl (fun m e => alInsert e.1 e.2 m) []
  { valid_proposals := []
    vote_solicits := []
    votes := []
    tick_source := []
    nonce := nonce
    tick_to_leader := tick_to_leader
    vote_map := vote_map
    total_votes := (vote_map.map (fun e => e.2)).sum
    max_tick := 1 }

/-- `Core::set_max_tick`. -/
def Core.set_max_tick (c : Core) (t : Nat) : Core :=
  { c with max_tick := t }

/-- `Core::insert_proposal`.  Note the source's short-circuit: a bad
signature is only rejected when the source is the designated leader for
the proposal's tick. -/
def Core.insert_proposal (c : Core) (prop : Proposal) : Except String Core :=
  if !prop.verify_sig && (c.tick_to_leader prop.tick == prop.source) then
    Except.error "bad signature"
  else if prop.nonce != c.nonce then
    Except.error "bad nonce"
  else if prop.tick > c.max_tick then
    Except.error "proposal has tick greater than max tick"
  else if (prop.tick, prop.source) ∈ c.tick_source then
    Except.error "this player already sent something for this tick"
  else
    Except.ok { c with
      tick_source := (prop.tick, prop.source) :: c.tick_source,
      valid_proposals := alInsert prop.chash prop c.valid_proposals }

/-- `Core::insert_vote`: signature is checked unconditionally, then the
nonce, then that the target resolves. -/
def Core.insert_vote (c : Core) (vote : Vote) : Except String Core :=
  if !vote.verify_sig then
    Except.error "bad signature"
  else if vote.nonce != c.nonce then
    Except.error "bad nonce"
  else if (alGet vote.voting_for c.vote_solicits).isNone &&
      (alGet vote.voting_for c.valid_proposals).isNone then
    Except.error "vote not voting for anything"
  else
    Except.ok { c with votes := alInsert vote.chash vote c.votes }

/-- Tick of the node `h` resolves to, solicits first — the
`solicits.get(...).map(tick).or_else(proposals.get(...).map(tick))`
chain of `insert_solicit`. -/
def Core.parent_tick (c : Core) (h : HashVal) : Option Nat :=
  match alGet h c.vote_solicits with
  | some s => some s.tick
  | none => (alGet h c.valid_proposals).map (fun p => p.tick)

/-- `Core::insert_solicit`.  The `.unwrap()` on the parent tick is
modelled by `getD 0`; it is guarded by the preceding dangling-parent
check, under which `parent_tick` is `some`. -/
def Core.insert_solicit (c : Core) (solicit : Solicit) : Except String Core :=
  if !solicit.verify_sig && (c.tick_to_leader solicit.tick == solicit.source) then
    Except.error "bad signature"
  else if solicit.nonce != c.nonce then
    Except.error "bad nonce"
  else if solicit.tick > c.max_tick then
    Except.error "proposal has tick greater than max tick"
  else if (alGet solicit.previous c.vote_solicits).isNone &&
      (alGet solicit.previous c.valid_proposals).isNone then
    Except.error "solicit not growing from anything"
  else if solicit.tick ≤ (c.parent_tick solicit.previous).getD 0 then
    Except.error "tick of vote solicit cannot go backwards in time"
  else if (solicit.tick, solicit.source) ∈ c.tick_source then
    Except.error "this player already sent something for this tick"
  else
    Except.ok { c with
      tick_source := (solicit.tick, solicit.source) :: c.tick_source,
      vote_solicits := alInsert solicit.chash solicit c.vote_solicits }

/-- `Core::is_notarized`: the vote weight accumulated by `h` (absent
keys weigh `unwrap_or_default() = 0`) strictly exceeds
`total_votes * 2 / 3`. -/
def Core.is_notarized (c : Core) (h : HashVal) : Bool :=
  decide (c.total_votes * 2 / 3 <
    (((c.votes.map (fun e => e.2)).filter (fun v => v.voting_for == h)).map
      (fun v => (alGet v.source c.vote_map).getD 0)).sum)

/-- `Core::lookup_len` without its pure memo table, with explicit fuel:
proposals have length 0, a solicit has its parent's length plus 1, an
unresolved hash has length 0. -/
def Core.lookup_len (c : Core) : Nat → HashVal → Nat
  | 0, _ => 0
  | fuel + 1, h =>
    if (alGet h c.valid_proposals).isSome then 0
    else
      match alGet h c.vote_solicits with
      | some s => c.lookup_len fuel s.previous + 1
      | none => 0

/-- Fuel bound for the back-pointer walks: strictly larger than any
solicit tick, hence (ticks strictly decrease along `previous`) than the
length of any `previous`-chain. -/
def Core.walk_fuel (c : Core) : Nat :=
  ((c.vote_solicits.map (fun e => e.2.tick)).sum) + 2

/-- Chain length of a node, as `lookup_len` computes it. -/
def Core.lenOf (c : Core) (h : HashVal) : Nat :=
  c.lookup_len c.walk_fuel h

/-- The `valid_proposals.keys().chain(vote_solicits.keys())` iterator of
`get_lnc_tips`. -/
def Core.lnc_candidates (c : Core) : List HashVal :=
  (c.valid_proposals.map (fun e => e.1)) ++ (c.vote_solicits.map (fun e => e.1))

/-- The `hash_and_len` vector of `get_lnc_tips`: all notarized admitted
hashes paired with their chain lengths. -/
def Core.hash_and_len (c : Core) : List (HashVal × Nat) :=
  (c.lnc_candidates.filter (fun h => c.is_notarized h)).map
    (fun h => (h, c.lenOf h))

/-- `hash_and_len` sorted by length and reversed, as `get_lnc_tips`
builds it — descending length order. -/
def Core.lnc_sorted_desc (c : Core) : List (HashVal × Nat) :=
  (c.hash_and_len.insertionSort (fun a b => a.2 ≤ b.2)).reverse

/-- `Core::get_lnc_tips`: all notarized admitted hashes, paired with
their lengths, sorted by length, reversed, the maximal-length prefix
taken (`first` then `take_while`), and the surviving hashes sorted
ascending. -/
def Core.get_lnc_tips (c : Core) : List HashVal :=
  match c.lnc_sorted_desc.head? with
  | none => []
  | some top =>
    ((c.lnc_sorted_desc.takeWhile (fun s => s.2 == top.2)).map
      (fun s => s.1)).insertionSort (fun a b => a ≤ b)

/-- The back-pointer walk of `get_finalized`: the tick sequence from `h`
down to (and including) its root proposal, together with that proposal.
`none` both on fuel exhaustion and on a dangling chain (where the Rust
loop panics); on admitted states with `walk_fuel` fuel it is total. -/
def Core.tickPath (c : Core) : Nat → HashVal → Option (List Nat × Proposal)
  | 0, _ => none
  | fuel + 1, h =>
    match alGet h c.vote_solicits with
    | some s => (c.tickPath fuel s.previous).map (fun r => (s.tick :: r.1, r.2))
    | none =>
      match alGet h c.valid_proposals with
      | some p => some ([p.tick], p)
      | none => none

/-- The sliding window-of-3 check of `get_finalized` on a descending
tick list: some window satisfies `w0 = w1 + 1` and `w1 = w2 + 1`. -/
def hasThreeConsec : List Nat → Bool
  | a :: b :: c :: rest =>
    ((a == b + 1) && (b == c + 1)) || hasThreeConsec (b :: c :: rest)
  | _ => false

/-- The loop body of `get_finalized` for one tip: the source seeds
`tick_numbers` with the tip's tick and then pushes the tip's tick again
on the first loop iteration, so the checked list is
`s.tick :: tickPath`. -/
def Core.finCheck (c : Core) (tip : HashVal) : Option Proposal :=
  match alGet tip c.vote_solicits, c.tickPath c.walk_fuel tip with
  | some s, some r =>
    if hasThreeConsec (s.tick :: r.1) then some r.2 else none
  | _, _ => none

/-- `Core::get_finalized`: walk back from each solicit in the LNC tips
(in ascending hash order, the `BTreeMap` iteration order), returning the
root proposal of the first tip whose descending tick path shows three
consecutive ticks. -/
def Core.get_finalized (c : Core) : Option Proposal :=
  ((c.vote_solicits.map (fun e => e.1)).filter
    (fun h => (c.get_lnc_tips).contains h)).findSome? c.finCheck

/-- `DiffMessage` from `src/core.rs`. -/
inductive DiffMessage where
  | Proposal : Proposal → DiffMessage
  | Solicit : Solicit → DiffMessage
  | Vote : Vote → DiffMessage
deriving DecidableEq

/-- The `entry(k).or_default() ^= x` update used to build the summary. -/
def xorInto (k : HashVal) (x : HashVal) : List (HashVal × HashVal) → List (HashVal × HashVal)
  | [] => [(k, Nat.xor 0 x)]
  | e :: rest =>
    if e.1 = k then (e.1, Nat.xor e.2 x) :: rest else e :: xorInto k x rest

/-- `Core::summary`: every admitted proposal/solicit hash maps to the
XOR of the hashes of the votes targeting it (0 when unvoted). -/
def Core.summary (c : Core) : List (HashVal × HashVal) :=
  let base := (c.valid_proposals.map (fun e => (e.1, (0 : Nat)))) ++
    (c.vote_solicits.map (fun e => (e.1, (0 : Nat))))
  c.votes.foldl (fun acc e => xorInto e.2.voting_for e.1 acc) base

/-- The local votes targeting `h`, in vote-map order
(`votes_by_candidate` in `get_diff`). -/
def Core.votes_for (c : Core) (h : HashVal) : List Vote :=
  (c.votes.map (fun e => e.2)).filter (fun v => v.voting_for == h)

/-- `u64::MAX`, the sort sentinel giving votes the last position. -/
def U64MAX : Nat := 2 ^ 64 - 1

/-- The sort key of `get_diff`: tick for proposals and solicits,
`u64::MAX` for votes. -/
def diffKey : DiffMessage → Nat
  | DiffMessage.Proposal p => p.tick
  | DiffMessage.Solicit s => s.tick
  | DiffMessage.Vote _ => U64MAX

/-- `Core::get_diff`.  The peer's summary is read only through `get` /
`contains_key` and is modelled as a partial map.  The final
`sort_unstable_by_key` is modelled by a sort on the same key (the source
does not fix the relative order of equal keys; ties between distinct
kinds arise only at tick `u64::MAX`). -/
def Core.diff_unsorted (c : Core) (their : HashVal → Option HashVal) : List DiffMessage :=
  (c.valid_proposals.flatMap (fun e =>
    if alGet e.1 c.summary ≠ their e.1 then
      (if (their e.1).isNone then [DiffMessage.Proposal e.2] else []) ++
        (c.votes_for e.1).map DiffMessage.Vote
    else [])) ++
  (c.vote_solicits.flatMap (fun e =>
    if alGet e.1 c.summary ≠ their e.1 then
      (if (their e.1).isNone then [DiffMessage.Solicit e.2] else []) ++
        (c.votes_for e.1).map DiffMessage.Vote
    else []))

def Core.get_diff (c : Core) (their : HashVal → Option HashVal) : List DiffMessage :=
  (c.diff_unsorted their).insertionSort (fun a b => diffKey a ≤ diffKey b)

/-- `Core::apply_one_diff`. -/
def Core.apply_one_diff (c : Core) : DiffMessage → Except String Core
  | DiffMessage.Proposal p => c.insert_proposal p
  | DiffMessage.Solicit s => c.insert_solicit s
  | DiffMessage.Vote v => c.insert_vote v

/-- Post-state of `insert_proposal` on a `&mut self` receiver: the new
state on success, the unchanged state on failure. -/
def Core.insPropS (c : Core) (p : Proposal) : Core :=
  match c.insert_proposal p with
  | Except.ok c2 => c2
  | Except.error _ => c

/-- Post-state of `insert_solicit`. -/
def Core.insSolS (c : Core) (s : Solicit) : Core :=
  match c.insert_solicit s with
  | Except.ok c2 => c2
  | Except.error _ => c

/-- Post-state of `insert_vote`. -/
def Core.insVoteS (c : Core) (v : Vote) : Core :=
  match c.insert_vote v with
  | Except.ok c2 => c2
  | Except.error _ => c

/-- Core states reachable from `Core::new` by the mutating operations:
the three message inserts (which also cover `apply_one_diff`,
`insert_my_votes` and `insert_my_prop_or_solicit`, all of which mutate
only through them) and `set_max_tick`. -/
inductive Reachable : Core → Prop where
  | base (nonce : Nat) (pv : List (PubKey × Nat)) (f : Nat → PubKey) :
      Reachable (Core.new nonce pv f)
  | smt (c : Core) (t : Nat) : Reachable c → Reachable (c.set_max_tick t)
  | prop (c : Core) (p : Proposal) : Reachable c → Reachable (c.insPropS p)
  | sol (c : Core) (s : Solicit) : Reachable c → Reachable (c.insSolS s)
  | vote (c : Core) (v : Vote) : Reachable c → Reachable (c.insVoteS v)


/-- Post-state of `apply_one_diff`. -/
def Core.applyDiffS (c : Core) (m : DiffMessage) : Core :=
  match c.apply_one_diff m with
  | Except.ok c2 => c2
  | Except.error _ => c

/-- Leader schedule of the running example: participant 1 always leads. -/
def exLeader : Nat → PubKey := fun _ => 1

/-- Root proposal of the running example, properly signed by source 1. -/
def exProposal (body : Nat) : Proposal :=
  { nonce := 0, tick := 0, body := body, source := 1,
    signature := sigSign 1 (Proposal.chash
      { nonce := 0, tick := 0, body := body, source := 1, signature := 0 }) }

/-- A properly signed solicit by source 1 extending `prev`. -/
def exSolicit (tick : Nat) (prev : HashVal) : Solicit :=
  { nonce := 0, tick := tick, previous := prev, source := 1,
    signature := sigSign 1 (Solicit.chash
      { nonce := 0, tick := tick, previous := prev, source := 1, signature := 0 }) }

/-- A properly signed vote by source 1 for `target`. -/
def exVote (target : HashVal) : Vote :=
  { nonce := 0, voting_for := target, source := 1,
    signature := sigSign 1 (Vote.chash
      { nonce := 0, voting_for := target, source := 1, signature := 0 }) }

/-- Running example, step 0: a single participant of weight 3. -/
def exCore0 : Core := Core.new 0 [(1, 3)] exLeader

/-- Step 1: the driver advances the tick ceiling to 2. -/
def exCore1 : Core := exCore0.set_max_tick 2

/-- Step 2: admit the root proposal carrying `body`. -/
def exCore2 (body : Nat) : Core := exCore1.insPropS (exProposal body)

/-- Step 3: admit a solicit at tick 1 on the proposal. -/
def exCore3 (body : Nat) : Core :=
  (exCore2 body).insSolS (exSolicit 1 (exProposal body).chash)

/-- Step 4: admit a solicit at tick 2 on the tick-1 solicit. -/
def exCore4 (body : Nat) : Core :=
  (exCore3 body).insSolS (exSolicit 2 (exSolicit 1 (exProposal body).chash).chash)

/-- Step 5: vote for the proposal. -/
def exCore5 (body : Nat) : Core :=
  (exCore4 body).insVoteS (exVote (exProposal body).chash)

/-- Step 6: vote for the tick-1 solicit. -/
def exCore6 (body : Nat) : Core :=
  (exCore5 body).insVoteS (exVote (exSolicit 1 (exProposal body).chash).chash)

/-- Step 7: vote for the tick-2 solicit.  Ticks 2, 1, 0 are consecutive,
so this state finalizes `exProposal body`. -/
def exChain (body : Nat) : Core :=
  (exCore6 body).insVoteS
    (exVote (exSolicit 2 (exSolicit 1 (exProposal body).chash).chash).chash)

lemma exChain_reachable (body : Nat) : Reachable (exChain body) :=
  Reachable.vote _ _ (Reachable.vote _ _ (Reachable.vote _ _ (Reachable.sol _ _
    (Reachable.sol _ _ (Reachable.prop _ _ (Reachable.smt _ _
      (Reachable.base 0 [(1, 3)] exLeader)))))))

lemma alGet_alInsert_self {α : Type} (k : Nat) (v : α) (l : List (Nat × α)) :
    alGet k (alInsert k v l) = some v := by
  induction l with
  | nil => simp [alInsert, alGet]
  | cons e rest ih =>
    simp only [alInsert]
    split
    · simp [alGet]
    · split
      · simp [alGet]
      · rename_i h1 h2
        have h3 : e.1 ≠ k := by omega
        simp [alGet, h3, ih]

lemma alGet_alInsert_ne {α : Type} {k k' : Nat} (v : α) (l : List (Nat × α))
    (hne : k' ≠ k) : alGet k (alInsert k' v l) = alGet k l := by
  induction l with
  | nil => simp [alInsert, alGet, hne]
  | cons e rest ih =>
    simp only [alInsert]
    split
    · simp [alGet, hne]
    · split
      · rename_i h1 h2
        subst h2
        simp [alGet, hne]
      · simp [alGet, ih]

lemma alGet_alInsert {α : Type} (k k' : Nat) (v : α) (l : List (Nat × α)) :
    alGet k (alInsert k' v l) = if k' = k then some v else alGet k l := by
  by_cases h : k' = k
  · subst h; simp [alGet_alInsert_self]
  · simp [h, alGet_alInsert_ne v l h]

lemma mem_alInsert {α : Type} {e : Nat × α} {k : Nat} {v : α} {l : List (Nat × α)}
    (h : e ∈ alInsert k v l) : e = (k, v) ∨ e ∈ l := by
  induction l with
  | nil => simpa [alInsert] using h
  | cons f rest ih =>
    simp only [alInsert] at h
    split at h
    · rcases List.mem_cons.mp h with h' | h'
      · exact Or.inl h'
      · exact Or.inr h'
    · split at h
      · rcases List.mem_cons.mp h with h' | h'
        · exact Or.inl h'
        · exact Or.inr (List.mem_cons_of_mem _ h')
      · rcases List.mem_cons.mp h with h' | h'
        · exact Or.inr (h' ▸ List.mem_cons_self _ _)
        · rcases ih h' with h'' | h''
          · exact Or.inl h''
          · exact Or.inr (List.mem_cons_of_mem _ h'')

lemma alGet_mem {α : Type} {k : Nat} {v : α} {l : List (Nat × α)}
    (h : alGet k l = some v) : (k, v) ∈ l := by
  induction l with
  | nil => simp [alGet] at h
  | cons e rest ih =>
    simp only [alGet] at h
    split at h
    · rename_i he
      injection h with hv
      obtain ⟨e1, e2⟩ := e
      simp only at he hv
      subst he; subst hv
      exact List.mem_cons_self _ _
    · exact List.mem_cons_of_mem _ (ih h)

lemma alGet_isSome_of_mem_fst {α : Type} {k : Nat} {l : List (Nat × α)}
    (h : k ∈ l.map (fun e => e.1)) : (alGet k l).isSome = true := by
  induction l with
  | nil => simp at h
  | cons e rest ih =>
    simp only [List.map_cons, List.mem_cons] at h
    simp only [alGet]
    rcases h with h | h
    · simp [h]
    · split
      · simp
      · exact ih h

lemma mem_fst_of_alGet_isSome {α : Type} {k : Nat} {l : List (Nat × α)}
    (h : (alGet k l).isSome = true) : k ∈ l.map (fun e => e.1) := by
  induction l with
  | nil => simp [alGet] at h
  | cons e rest ih =>
    simp only [alGet] at h
    by_cases he : e.1 = k
    · simp [he]
    · simp only [if_neg he] at h
      simp [ih h]

lemma alInsert_idem {α : Type} (k : Nat) (v : α) (l : List (Nat × α)) :
    alInsert k v (alInsert k v l) = alInsert k v l := by
  induction l with
  | nil => simp [alInsert]
  | cons e rest ih =>
    simp only [alInsert]
    split
    · rename_i h1
      simp [alInsert, h1, lt_irrefl]
    · split
      · rename_i h1 h2
        simp [alInsert, h1, h2, lt_irrefl]
      · rename_i h1 h2
        simp only [alInsert, if_neg h1, if_neg h2, ih]

lemma proposal_chash_inj {p q : Proposal} (h : p.chash = q.chash) :
    p.nonce = q.nonce ∧ p.tick = q.tick ∧ p.body = q.body ∧ p.source = q.source := by
  simpa [Proposal.chash, Nat.pair_eq_pair] using h

lemma solicit_chash_inj {p q : Solicit} (h : p.chash = q.chash) :
    p.nonce = q.nonce ∧ p.tick = q.tick ∧ p.previous = q.previous ∧ p.source = q.source := by
  simpa [Solicit.chash, Nat.pair_eq_pair] using h

lemma vote_chash_inj {p q : Vote} (h : p.chash = q.chash) :
    p.nonce = q.nonce ∧ p.voting_for = q.voting_for ∧ p.source = q.source := by
  simpa [Vote.chash, Nat.pair_eq_pair] using h

lemma prop_chash_ne_sol_chash (p : Proposal) (s : Solicit) :
    p.chash ≠ s.chash := by
  simp [Proposal.chash, Solicit.chash, Nat.pair_eq_pair]

/-- `h` refers to an admitted Proposal or Solicit. -/
def Core.resolves (c : Core) (h : HashVal) : Prop :=
  (alGet h c.vote_solicits).isSome = true ∨ (alGet h c.valid_proposals).isSome = true

lemma Core.parent_tick_isSome_of_resolves {c : Core} {h : HashVal}
    (hr : c.resolves h) : (c.parent_tick h).isSome = true := by
  unfold Core.parent_tick
  rcases hr with hr | hr
  · cases hs : alGet h c.vote_solicits with
    | none => rw [hs] at hr; simp at hr
    | some s => simp [hs]
  · cases hs : alGet h c.vote_solicits with
    | none => simp [hs, Option.isSome_map, hr]
    | some s => simp [hs]

lemma Core.resolves_of_parent_tick_isSome {c : Core} {h : HashVal}
    (hp : (c.parent_tick h).isSome = true) : c.resolves h := by
  unfold Core.parent_tick at hp
  cases hs : alGet h c.vote_solicits with
  | some s => exact Or.inl (by simp [hs])
  | none =>
    rw [hs] at hp
    cases hq : alGet h c.valid_proposals with
    | none => rw [hq] at hp; simp at hp
    | some q => exact Or.inr (by simp [hq])

/-- Inversion of a successful `insert_proposal`. -/
lemma insert_proposal_ok {c : Core} {p : Proposal} {c2 : Core}
    (h : c.insert_proposal p = Except.ok c2) :
    (!p.verify_sig && (c.tick_to_leader p.tick == p.source)) = false ∧
    p.nonce = c.nonce ∧
    p.tick ≤ c.max_tick ∧
    (p.tick, p.source) ∉ c.tick_source ∧
    c2 = { c with
      tick_source := (p.tick, p.source) :: c.tick_source,
      valid_proposals := alInsert p.chash p c.valid_proposals } := by
  unfold Core.insert_proposal at h
  split at h
  · exact Except.noConfusion h
  split at h
  · exact Except.noConfusion h
  split at h
  · exact Except.noConfusion h
  split at h
  · exact Except.noConfusion h
  rename_i h1 h2 h3 h4
  injection h with h5
  refine ⟨by simpa using h1, by simpa using h2, by omega, h4, h5.symm⟩

/-- Inversion of a successful `insert_vote`. -/
lemma insert_vote_ok {c : Core} {v : Vote} {c2 : Core}
    (h : c.insert_vote v = Except.ok c2) :
    v.verify_sig = true ∧
    v.nonce = c.nonce ∧
    c.resolves v.voting_for ∧
    c2 = { c with votes := alInsert v.chash v c.votes } := by
  unfold Core.insert_vote at h
  split at h
  · exact Except.noConfusion h
  split at h
  · exact Except.noConfusion h
  split at h
  · exact Except.noConfusion h
  rename_i h1 h2 h3
  injection h with h5
  refine ⟨by simpa using h1, by simpa using h2, ?_, h5.symm⟩
  unfold Core.resolves
  simp only [Bool.and_eq_true, Option.isNone_iff_eq_none] at h3
  rcases Decidable.not_and_iff_or_not.mp h3 with h' | h'
  · exact Or.inl (by cases hh : alGet v.voting_for c.vote_solicits <;> simp [hh] at h' ⊢)
  · exact Or.inr (by cases hh : alGet v.voting_for c.valid_proposals <;> simp [hh] at h' ⊢)

/-- Inversion of a successful `insert_solicit`. -/
lemma insert_solicit_ok {c : Core} {s : Solicit} {c2 : Core}
    (h : c.insert_solicit s = Except.ok c2) :
    (!s.verify_sig && (c.tick_to_leader s.tick == s.source)) = false ∧
    s.nonce = c.nonce ∧
    s.tick ≤ c.max_tick ∧
    (∃ pt, c.parent_tick s.previous = some pt ∧ pt < s.tick) ∧
    (s.tick, s.source) ∉ c.tick_source ∧
    c2 = { c with
      tick_source := (s.tick, s.source) :: c.tick_source,
      vote_solicits := alInsert s.chash s c.vote_solicits } := by
  unfold Core.insert_solicit at h
  split at h
  · exact Except.noConfusion h
  split at h
  · exact Except.noConfusion h
  split at h
  · exact Except.noConfusion h
  split at h
  · exact Except.noConfusion h
  split at h
  · exact Except.noConfusion h
  split at h
  · exact Except.noConfusion h
  rename_i h1 h2 h3 h4 h5 h6
  injection h with h7
  have hres : c.resolves s.previous := by
    unfold Core.resolves
    simp only [Bool.and_eq_true, Option.isNone_iff_eq_none] at h4
    rcases Decidable.not_and_iff_or_not.mp h4 with h' | h'
    · exact Or.inl (by cases hh : alGet s.previous c.vote_solicits <;> simp [hh] at h' ⊢)
    · exact Or.inr (by cases hh : alGet s.previous c.valid_proposals <;> simp [hh] at h' ⊢)
  have hpt : (c.parent_tick s.previous).isSome = true :=
    Core.parent_tick_isSome_of_resolves hres
  cases hptv : c.parent_tick s.previous with
  | none => rw [hptv] at hpt; simp at hpt
  | some pt =>
    refine ⟨by simpa using h1, by simpa using h2, by omega, ⟨pt, rfl, ?_⟩, h6, h7.symm⟩
    rw [hptv] at h5
    simp only [Option.getD_some] at h5
    omega

/-- The state invariant maintained by admission: map keys are canonical
hashes of their values, solicit parents resolve with strictly smaller
ticks, vote targets resolve, and admitted votes carry valid
signatures. -/
structure CoreInv (c : Core) : Prop where
  prop_keys : ∀ e ∈ c.valid_proposals, e.1 = Proposal.chash e.2
  sol_keys : ∀ e ∈ c.vote_solicits, e.1 = Solicit.chash e.2
  vote_keys : ∀ e ∈ c.votes, e.1 = Vote.chash e.2
  sol_parent : ∀ e ∈ c.vote_solicits,
    ∃ pt, c.parent_tick e.2.previous = some pt ∧ pt < e.2.tick
  vote_target : ∀ e ∈ c.votes, c.resolves e.2.voting_for
  vote_sig : ∀ e ∈ c.votes, e.2.verify_sig = true

lemma alGet_isSome_alInsert {α : Type} (k k' : Nat) (v : α) (l : List (Nat × α))
    (h : (alGet k l).isSome = true) : (alGet k (alInsert k' v l)).isSome = true := by
  rw [alGet_alInsert]
  split <;> simp [h]

lemma parent_tick_insProp {c : Core} (p : Proposal) (ts' : List (Nat × PubKey))
    (hkeys : ∀ e ∈ c.valid_proposals, e.1 = Proposal.chash e.2)
    {h : HashVal} {t : Nat} (hpt : c.parent_tick h = some t) :
    Core.parent_tick { c with
      tick_source := ts',
      valid_proposals := alInsert p.chash p c.valid_proposals } h = some t := by
  unfold Core.parent_tick at hpt ⊢
  cases hs : alGet h c.vote_solicits with
  | some s => simp only [hs] at hpt ⊢; exact hpt
  | none =>
    simp only [hs] at hpt ⊢
    cases hp : alGet h c.valid_proposals with
    | none => simp [hp] at hpt
    | some q =>
      rw [hp] at hpt
      simp only [Option.map_some'] at hpt
      rw [alGet_alInsert]
      by_cases he : p.chash = h
      · have hq : (h, q) ∈ c.valid_proposals := alGet_mem hp
        have hk : h = Proposal.chash q := hkeys _ hq
        have htk : p.tick = q.tick := (proposal_chash_inj (he.trans hk)).2.1
        simp [he, htk, hpt]
      · simp [he, hp, hpt]

lemma parent_tick_insSol {c : Core} (s : Solicit) (ts' : List (Nat × PubKey))
    (hskeys : ∀ e ∈ c.vote_solicits, e.1 = Solicit.chash e.2)
    (hpkeys : ∀ e ∈ c.valid_proposals, e.1 = Proposal.chash e.2)
    {h : HashVal} {t : Nat} (hpt : c.parent_tick h = some t) :
    Core.parent_tick { c with
      tick_source := ts',
      vote_solicits := alInsert s.chash s c.vote_solicits } h = some t := by
  unfold Core.parent_tick at hpt ⊢
  rw [alGet_alInsert]
  by_cases he : s.chash = h
  · simp only [if_pos he]
    cases hs : alGet h c.vote_solicits with
    | some sOld =>
      rw [hs] at hpt
      injection hpt with hpt
      have hk : h = Solicit.chash sOld := hskeys _ (alGet_mem hs)
      have : s.tick = sOld.tick := (solicit_chash_inj (he.trans hk)).2.1
      simp [this, hpt]
    | none =>
      rw [hs] at hpt
      cases hp : alGet h c.valid_proposals with
      | none => simp [hp] at hpt
      | some q =>
        have hk : h = Proposal.chash q := hpkeys _ (alGet_mem hp)
        exact absurd (he.trans hk).symm (prop_chash_ne_sol_chash q s)
  · simp only [if_neg he]
    exact hpt

/-- Every reachable Core state satisfies the admission invariant. -/
lemma reachable_inv {c : Core} (hR : Reachable c) : CoreInv c := by
  induction hR with
  | base nonce pv f =>
    exact ⟨by simp [Core.new], by simp [Core.new], by simp [Core.new],
      by simp [Core.new], by simp [Core.new], by simp [Core.new]⟩
  | smt c t _ ih =>
    exact ⟨ih.prop_keys, ih.sol_keys, ih.vote_keys, ih.sol_parent,
      ih.vote_target, ih.vote_sig⟩
  | prop c p _ ih =>
    unfold Core.insPropS
    cases hE : c.insert_proposal p with
    | error e => exact ih
    | ok c2 =>
      obtain ⟨hsig, hnonce, htick, hts, hc2⟩ := insert_proposal_ok hE
      subst hc2
      refine ⟨?_, ih.sol_keys, ih.vote_keys, ?_, ?_, ih.vote_sig⟩
      · intro e he
        rcases mem_alInsert he with he' | he'
        · subst he'; rfl
        · exact ih.prop_keys _ he'
      · intro e he
        obtain ⟨pt, hpt, hlt⟩ := ih.sol_parent e he
        exact ⟨pt, parent_tick_insProp p _ ih.prop_keys hpt, hlt⟩
      · intro e he
        rcases ih.vote_target e he with hr | hr
        · exact Or.inl hr
        · exact Or.inr (alGet_isSome_alInsert _ _ _ _ hr)
  | sol c s _ ih =>
    unfold Core.insSolS
    cases hE : c.insert_solicit s with
    | error e => exact ih
    | ok c2 =>
      obtain ⟨hsig, hnonce, htick, ⟨pt0, hpt0, hlt0⟩, hts, hc2⟩ := insert_solicit_ok hE
      subst hc2
      refine ⟨ih.prop_keys, ?_, ih.vote_keys, ?_, ?_, ih.vote_sig⟩
      · intro e he
        rcases mem_alInsert he with he' | he'
        · subst he'; rfl
        · exact ih.sol_keys _ he'
      · intro e he
        rcases mem_alInsert he with he' | he'
        · subst he'
        
          exact ⟨pt0, parent_tick_insSol s _ ih.sol_keys ih.prop_keys hpt0, hlt0⟩
        · obtain ⟨pt, hpt, hlt⟩ := ih.sol_parent e he'
          exact ⟨pt, parent_tick_insSol s _ ih.sol_keys ih.prop_keys hpt, hlt⟩
      · intro e he
        rcases ih.vote_target e he with hr | hr
        · exact Or.inl (alGet_isSome_alInsert _ _ _ _ hr)
        · exact Or.inr hr
  | vote c v _ ih =>
    unfold Core.insVoteS
    cases hE : c.insert_vote v with
    | error e => exact ih
    | ok c2 =>
      obtain ⟨hsig, hnonce, hres, hc2⟩ := insert_vote_ok hE
      subst hc2
      refine ⟨ih.prop_keys, ih.sol_keys, ?_, ih.sol_parent, ?_, ?_⟩
      · intro e he
        rcases mem_alInsert he with he' | he'
        · subst he'; rfl
        · exact ih.vote_keys _ he'
      · intro e he
        rcases mem_alInsert he with he' | he'
        · subst he'; exact hres
        · exact ih.vote_target e he'
      · intro e he
        rcases mem_alInsert he with he' | he'
        · subst he'; exact hsig
        · exact ih.vote_sig e he'

/-- Spec-side accumulated vote weight for `h`: the sum of
`vote_map[v.source]` over admitted votes `v` with `v.voting_for = h`
(absent sources weigh 0). -/
def voteWeightFor (c : Core) (h : HashVal) : Nat :=
  ((c.votes.map (fun e => e.2)).map
    (fun v => if v.voting_for = h then (alGet v.source c.vote_map).getD 0 else 0)).sum

lemma filter_weight_sum (h : HashVal) (w : Vote → Nat) (l : List Vote) :
    ((l.filter (fun v => v.voting_for == h)).map w).sum =
      (l.map (fun v => if v.voting_for = h then w v else 0)).sum := by
  induction l with
  | nil => simp
  | cons v rest ih =>
    by_cases hv : v.voting_for = h
    · simp [List.filter_cons, hv, ih]
    · simp [List.filter_cons, hv, ih]

/-- Claim C6: a hash is notarized exactly when the admitted votes for it
carry weight strictly greater than `2 * total_votes / 3`; in particular,
when the vote weights sum to 0 (and `total_votes` is their sum, as
`Core::new` establishes) no hash is ever notarized. -/
theorem c6_notarization_threshold :
    (∀ (c : Core) (h : HashVal),
      c.is_notarized h = true ↔ 2 * c.total_votes / 3 < voteWeightFor c h) ∧
    (∀ c : Core, c.total_votes = (c.vote_map.map (fun e => e.2)).sum →
      (c.vote_map.map (fun e => e.2)).sum = 0 →
      ∀ h, c.is_notarized h = false) := by
  have hmain : ∀ (c : Core) (h : HashVal),
      c.is_notarized h = true ↔ 2 * c.total_votes / 3 < voteWeightFor c h := by
    intro c h
    unfold Core.is_notarized voteWeightFor
    rw [decide_eq_true_eq, filter_weight_sum, Nat.mul_comm]
  refine ⟨hmain, ?_⟩
  intro c htv hsum h
  have hz : voteWeightFor c h = 0 := by
    unfold voteWeightFor
    rw [List.sum_eq_zero_iff]
    intro x hx
    simp only [List.mem_map] at hx
    obtain ⟨v, _, hx⟩ := hx
    subst hx
    split
    · cases hg : alGet v.source c.vote_map with
      | none => simp
      | some w =>
        have hmem : (v.source, w) ∈ c.vote_map := alGet_mem hg
        have hw : w ∈ c.vote_map.map (fun e => e.2) :=
          List.mem_map_of_mem (fun e => e.2) hmem
        have := List.sum_eq_zero_iff.mp hsum w hw
        simp [this]
    · rfl
  cases hb : c.is_notarized h with
  | false => rfl
  | true =>
    have := (hmain c h).mp hb
    rw [hz] at this
    omega

/-- Closed witness for C6: in the zero-weight Core `Core.new 7 [(1, 0)]
exLeader`, no hash (here: hash 0) is notarized. -/
theorem c6_witness : (Core.new 7 [(1, 0)] exLeader).is_notarized 0 = false :=
  c6_notarization_threshold.2 (Core.new 7 [(1, 0)] exLeader) (by decide) (by decide) 0

/-- Claim C9: any failing `insert_proposal`, `insert_solicit`,
`insert_vote` or `apply_one_diff` leaves the Core state unchanged. -/
theorem c9_failed_insert_preserves_state :
    (∀ (c : Core) (p : Proposal) (e : String),
      c.insert_proposal p = Except.error e → c.insPropS p = c) ∧
    (∀ (c : Core) (s : Solicit) (e : String),
      c.insert_solicit s = Except.error e → c.insSolS s = c) ∧
    (∀ (c : Core) (v : Vote) (e : String),
      c.insert_vote v = Except.error e → c.insVoteS v = c) ∧
    (∀ (c : Core) (m : DiffMessage) (e : String),
      c.apply_one_diff m = Except.error e → c.applyDiffS m = c) := by
  refine ⟨?_, ?_, ?_, ?_⟩
  · intro c p e h; unfold Core.insPropS; rw [h]
  · intro c s e h; unfold Core.insSolS; rw [h]
  · intro c v e h; unfold Core.insVoteS; rw [h]
  · intro c m e h; unfold Core.applyDiffS; rw [h]

/-- Closed witness for C9: a dangling vote fails and the state is
unchanged. -/
theorem c9_witness : Core.insVoteS exCore0 (exVote 5) = exCore0 :=
  c9_failed_insert_preserves_state.2.2.1 exCore0 (exVote 5)
    "vote not voting for anything" (by rfl)

/-- Leader schedule that always designates participant 0. -/
def zeroLeader : Nat → PubKey := fun _ => 0

/-- A proposal whose signature does not verify, sourced by key 5 —
which is not the designated leader under `zeroLeader`. -/
def badSigProposal : Proposal :=
  { nonce := 0, tick := 0, body := 0, source := 5, signature := 999 }

/-- Claim C1 counterexample: `badSigProposal`'s signature does not
verify, yet `insert_proposal` admits it (its source is not the leader
for tick 0, so the short-circuited signature check passes), and the
resulting state contains a message with a non-verifying signature. -/
theorem c1_cex :
    badSigProposal.verify_sig = false ∧
    alGet badSigProposal.chash
        ((Core.new 0 [] zeroLeader).insPropS badSigProposal).valid_proposals =
      some badSigProposal := by
  constructor
  · decide
  · decide

/-- Claim C1 (amended): a Vote whose signature does not verify is always
rejected with the bad-signature error; a Proposal or Solicit whose
signature does not verify is rejected exactly when its source is the
designated leader for its tick; consequently every admitted Vote in a
reachable state carries a verifying signature. -/
theorem c1_amended :
    (∀ (c : Core) (v : Vote), v.verify_sig = false →
      c.insert_vote v = Except.error "bad signature") ∧
    (∀ (c : Core) (p : Proposal), p.verify_sig = false →
      c.tick_to_leader p.tick = p.source →
      c.insert_proposal p = Except.error "bad signature") ∧
    (∀ (c : Core) (s : Solicit), s.verify_sig = false →
      c.tick_to_leader s.tick = s.source →
      c.insert_solicit s = Except.error "bad signature") ∧
    (∀ c : Core, Reachable c → ∀ e ∈ c.votes, e.2.verify_sig = true) := by
  refine ⟨?_, ?_, ?_, ?_⟩
  · intro c v hv
    unfold Core.insert_vote
    simp [hv]
  · intro c p hv hl
    unfold Core.insert_proposal
    simp [hv, hl]
  · intro c s hv hl
    unfold Core.insert_solicit
    simp [hv, hl]
  · intro c hR e he
    exact (reachable_inv hR).vote_sig e he

/-- A vote with a non-verifying signature. -/
def badSigVote : Vote :=
  { nonce := 0, voting_for := 0, source := 1, signature := 3 }

/-- Closed witness for the amended C1. -/
theorem c1_amended_witness :
    exCore0.insert_vote badSigVote = Except.error "bad signature" :=
  c1_amended.1 exCore0 badSigVote (by decide)

/-- Claim C4 counterexample: admitting `exProposal 0` succeeds, but
re-inserting the identical proposal into the resulting state fails with
the equivocation error rather than succeeding. -/
theorem c4_cex :
    exCore1.insert_proposal (exProposal 0) = Except.ok (exCore2 0) ∧
    (exCore2 0).insert_proposal (exProposal 0) =
      Except.error "this player already sent something for this tick" := by
  constructor
  · rfl
  · rfl

lemma lt_pair_one (y : Nat) : y < Nat.pair 1 y := by
  unfold Nat.pair
  split <;> nlinarith

/-- A solicit can never point at its own canonical hash: the pairing
encoding strictly dominates every field. -/
lemma Solicit.chash_ne_previous (s : Solicit) : s.chash ≠ s.previous := by
  have h1 : s.previous ≤ Nat.pair s.previous s.source := Nat.left_le_pair _ _
  have h2 : Nat.pair s.previous s.source ≤
      Nat.pair s.tick (Nat.pair s.previous s.source) := Nat.right_le_pair _ _
  have h3 : Nat.pair s.tick (Nat.pair s.previous s.source) ≤
      Nat.pair s.nonce (Nat.pair s.tick (Nat.pair s.previous s.source)) :=
    Nat.right_le_pair _ _
  have h4 := lt_pair_one (Nat.pair s.nonce
    (Nat.pair s.tick (Nat.pair s.previous s.source)))
  have h5 : s.previous < Nat.pair 1 (Nat.pair s.nonce
      (Nat.pair s.tick (Nat.pair s.previous s.source))) :=
    lt_of_le_of_lt (le_trans h1 (le_trans h2 h3)) h4
  unfold Solicit.chash
  exact ne_of_gt h5

/-- Claim C4 (amended): re-inserting an identical Vote succeeds and
leaves the state unchanged (the same hash slot is overwritten);
re-inserting an identical Proposal or Solicit fails with the
equivocation error — its `(tick, source)` pair is already recorded —
and leaves the state unchanged. -/
theorem c4_amended :
    (∀ (c : Core) (v : Vote) (c2 : Core),
      c.insert_vote v = Except.ok c2 → c2.insert_vote v = Except.ok c2) ∧
    (∀ (c : Core) (p : Proposal) (c2 : Core),
      c.insert_proposal p = Except.ok c2 →
      c2.insert_proposal p =
          Except.error "this player already sent something for this tick" ∧
        c2.insPropS p = c2) ∧
    (∀ (c : Core) (s : Solicit) (c2 : Core),
      c.insert_solicit s = Except.ok c2 →
      c2.insert_solicit s =
          Except.error "this player already sent something for this tick" ∧
        c2.insSolS s = c2) := by
  refine ⟨?_, ?_, ?_⟩
  · intro c v c2 h
    obtain ⟨hsig, hnonce, hres, hc2⟩ := insert_vote_ok h
    subst hc2
    unfold Core.insert_vote
    have hcond : ((alGet v.voting_for c.vote_solicits).isNone &&
        (alGet v.voting_for c.valid_proposals).isNone) = false := by
      rcases hres with hr | hr
      · cases hg : alGet v.voting_for c.vote_solicits with
        | none => rw [hg] at hr; simp at hr
        | some s => simp [hg]
      · cases hg : alGet v.voting_for c.valid_proposals with
        | none => rw [hg] at hr; simp at hr
        | some s => simp [hg]
    simp [hsig, hnonce, hcond, alInsert_idem]
  · intro c p c2 h
    obtain ⟨hsig, hnonce, htick, hts, hc2⟩ := insert_proposal_ok h
    subst hc2
    have herr : Core.insert_proposal
        { c with
          tick_source := (p.tick, p.source) :: c.tick_source,
          valid_proposals := alInsert p.chash p c.valid_proposals } p =
        Except.error "this player already sent something for this tick" := by
      unfold Core.insert_proposal
      simp [hsig, hnonce, Nat.not_lt.mpr htick]
    refine ⟨herr, ?_⟩
    unfold Core.insPropS
    rw [herr]
  · intro c s c2 h
    obtain ⟨hsig, hnonce, htick, ⟨pt, hpt1, hpt2⟩, hts, hc2⟩ := insert_solicit_ok h
    subst hc2
    have hne : s.chash ≠ s.previous := Solicit.chash_ne_previous s
    have hpt1' : Core.parent_tick
        { c with
          tick_source := (s.tick, s.source) :: c.tick_source,
          vote_solicits := alInsert s.chash s c.vote_solicits } s.previous = some pt := by
      unfold Core.parent_tick at hpt1 ⊢
      rw [alGet_alInsert, if_neg hne]
      exact hpt1
    have hres2 : ((alGet s.previous
        (alInsert s.chash s c.vote_solicits)).isNone &&
        (alGet s.previous c.valid_proposals).isNone) = false := by
      unfold Core.parent_tick at hpt1'
      rw [alGet_alInsert, if_neg hne] at hpt1' ⊢
      cases hg : alGet s.previous c.vote_solicits with
      | some q => simp [hg]
      | none =>
        rw [hg] at hpt1'
        cases hp : alGet s.previous c.valid_proposals with
        | none => rw [hp] at hpt1'; simp at hpt1'
        | some q => simp [hp]
    have herr : Core.insert_solicit
        { c with
          tick_source := (s.tick, s.source) :: c.tick_source,
          vote_solicits := alInsert s.chash s c.vote_solicits } s =
        Except.error "this player already sent something for this tick" := by
      unfold Core.insert_solicit
      simp only [hsig, Bool.false_eq_true, if_false, hnonce, bne_self_eq_false,
        Nat.not_lt.mpr htick, hres2, hpt1', Option.getD_some]
      simp [hsig, hnonce, Nat.not_lt.mpr htick, hres2, hpt1', Nat.not_le.mpr hpt2]
    refine ⟨herr, ?_⟩
    unfold Core.insSolS
    rw [herr]

/-- Closed witness for the amended C4: re-inserting the already-admitted
proposal of the running example fails with the equivocation error and
leaves the state unchanged. -/
theorem c4_witness :
    (exCore2 0).insert_proposal (exProposal 0) =
        Except.error "this player already sent something for this tick" ∧
      (exCore2 0).insPropS (exProposal 0) = exCore2 0 :=
  c4_amended.2.1 exCore1 (exProposal 0) (exCore2 0) (by rfl)

/-- Claim C3 counterexample: two Cores of the same instance (same nonce,
same weights, same leader function), each reachable through the insert
operations, that both finalize — with different proposal bodies.  The
sole participant holds all the weight and votes for both chains, which
the insert operations admit. -/
theorem c3_cex :
    Reachable (exChain 0) ∧ Reachable (exChain 1) ∧
    (exChain 0).nonce = (exChain 1).nonce ∧
    (exChain 0).vote_map = (exChain 1).vote_map ∧
    (exChain 0).tick_to_leader = (exChain 1).tick_to_leader ∧
    (exChain 0).get_finalized = some (exProposal 0) ∧
    (exChain 1).get_finalized = some (exProposal 1) ∧
    (exProposal 0).body ≠ (exProposal 1).body := by
  refine ⟨exChain_reachable 0, exChain_reachable 1, by decide, by decide, rfl,
    by decide, by decide, by decide⟩

lemma lookup_len_congr {c1 c2 : Core}
    (hp : c1.valid_proposals = c2.valid_proposals)
    (hs : c1.vote_solicits = c2.vote_solicits) :
    c1.lookup_len = c2.lookup_len := by
  funext fuel
  induction fuel with
  | zero => funext h; rfl
  | succ n ih =>
    funext h
    simp only [Core.lookup_len]
    rw [hp, hs]
    cases alGet h c2.vote_solicits with
    | none => rfl
    | some s => simp only [ih]

lemma tickPath_congr {c1 c2 : Core}
    (hp : c1.valid_proposals = c2.valid_proposals)
    (hs : c1.vote_solicits = c2.vote_solicits) :
    c1.tickPath = c2.tickPath := by
  funext fuel
  induction fuel with
  | zero => funext h; rfl
  | succ n ih =>
    funext h
    simp only [Core.tickPath]
    rw [hp, hs]
    cases alGet h c2.vote_solicits with
    | none => rfl
    | some s => simp only [ih]

lemma walk_fuel_congr {c1 c2 : Core}
    (hs : c1.vote_solicits = c2.vote_solicits) :
    c1.walk_fuel = c2.walk_fuel := by
  unfold Core.walk_fuel
  rw [hs]

lemma lnc_tips_congr {c1 c2 : Core}
    (hp : c1.valid_proposals = c2.valid_proposals)
    (hs : c1.vote_solicits = c2.vote_solicits)
    (hn : ∀ h, c1.is_notarized h = c2.is_notarized h) :
    c1.get_lnc_tips = c2.get_lnc_tips := by
  have hfn : (fun h => c1.is_notarized h) = fun h => c2.is_notarized h := funext hn
  have hlen : c1.lenOf = c2.lenOf := by
    funext h
    unfold Core.lenOf
    rw [lookup_len_congr hp hs, walk_fuel_congr hs]
  unfold Core.get_lnc_tips Core.lnc_sorted_desc Core.hash_and_len Core.lnc_candidates
  rw [hp, hs, hfn, hlen]

lemma get_finalized_congr {c1 c2 : Core}
    (hp : c1.valid_proposals = c2.valid_proposals)
    (hs : c1.vote_solicits = c2.vote_solicits)
    (hn : ∀ h, c1.is_notarized h = c2.is_notarized h) :
    c1.get_finalized = c2.get_finalized := by
  have hfc : c1.finCheck = c2.finCheck := by
    funext tip
    unfold Core.finCheck
    rw [hs, tickPath_congr hp hs, walk_fuel_congr hs]
  unfold Core.get_finalized
  rw [lnc_tips_congr hp hs hn, hs, hfc]

/-- Claim C3 (amended): `get_finalized` reads only the admitted message
maps and the voting parameters, so two Cores agreeing on those finalize
identically — in particular with the same body. -/
theorem c3_amended (cA cB : Core)
    (h1 : cA.valid_proposals = cB.valid_proposals)
    (h2 : cA.vote_solicits = cB.vote_solicits)
    (h3 : cA.votes = cB.votes)
    (h4 : cA.vote_map = cB.vote_map)
    (h5 : cA.total_votes = cB.total_votes) :
    cA.get_finalized = cB.get_finalized := by
  refine get_finalized_congr h1 h2 ?_
  intro h
  unfold Core.is_notarized
  rw [h3, h4, h5]

/-- Closed witness for the amended C3: a Core and the same Core with a
bumped tick ceiling share all admitted messages, hence finalize the same
proposal. -/
theorem c3_witness :
    (exChain 0).get_finalized = ((exChain 0).set_max_tick 9).get_finalized :=
  c3_amended (exChain 0) ((exChain 0).set_max_tick 9) rfl rfl rfl rfl rfl

/-- Claim C7: in every reachable Core state, each admitted Solicit's
`previous` resolves to an admitted Proposal or Solicit of strictly
smaller tick, and each admitted Vote's `voting_for` resolves. -/
theorem c7_parent_and_target (c : Core) (hR : Reachable c) :
    (∀ e ∈ c.vote_solicits, c.resolves e.2.previous ∧
      ∃ pt, c.parent_tick e.2.previous = some pt ∧ pt < e.2.tick) ∧
    (∀ e ∈ c.votes, c.resolves e.2.voting_for) := by
  have inv := reachable_inv hR
  refine ⟨?_, inv.vote_target⟩
  intro e he
  obtain ⟨pt, hpt, hlt⟩ := inv.sol_parent e he
  exact ⟨Core.resolves_of_parent_tick_isSome (by simp [hpt]), pt, hpt, hlt⟩

/-- Closed witness for C7: in the running example, the admitted vote for
the root proposal has a resolving target. -/
theorem c7_witness :
    (exChain 0).resolves (exVote (exProposal 0).chash).voting_for :=
  (c7_parent_and_target (exChain 0) (exChain_reachable 0)).2
    ((exVote (exProposal 0).chash).chash, exVote (exProposal 0).chash) (by decide)

lemma weight_sum_alInsert (h : HashVal) (wm : List (PubKey × Nat)) (v : Vote)
    (l : List (Nat × Vote))
    (hkeys : ∀ e ∈ l, e.1 = Vote.chash e.2)
    (hw : alGet v.source wm = none) :
    (((alInsert v.chash v l).map (fun e => e.2)).map
      (fun u => if u.voting_for = h then (alGet u.source wm).getD 0 else 0)).sum =
    ((l.map (fun e => e.2)).map
      (fun u => if u.voting_for = h then (alGet u.source wm).getD 0 else 0)).sum := by
  have hFv : (if v.voting_for = h then (alGet v.source wm).getD 0 else 0) = 0 := by
    split <;> simp [hw]
  induction l with
  | nil => simp [alInsert, hFv]
  | cons e rest ih =>
    have hkeys' : ∀ f ∈ rest, f.1 = Vote.chash f.2 :=
      fun f hf => hkeys f (List.mem_cons_of_mem _ hf)
    simp only [alInsert]
    split
    · simp [hFv]
    · split
      · rename_i h1 h2
        have hke : e.1 = Vote.chash e.2 := hkeys e (List.mem_cons_self _ _)
        have hch : Vote.chash e.2 = Vote.chash v := by rw [← hke, ← h2]
        obtain ⟨_, hvf, hsrc⟩ := vote_chash_inj hch
        have hFe : (if e.2.voting_for = h then (alGet e.2.source wm).getD 0 else 0) = 0 := by
          rw [hvf, hsrc]
          exact hFv
        simp [hFv, hFe]
      · simp only [List.map_cons, List.sum_cons]
        rw [ih hkeys']

/-- Claim C10: a correctly signed Vote of the right nonce with a
resolving target is admitted even when its source is absent from the
vote map; such a vote weighs 0 in `is_notarized`, so admitting it
changes neither notarization, nor the LNC tips, nor finalization. -/
theorem c10_outside_votes :
    (∀ (c : Core) (v : Vote), v.verify_sig = true → v.nonce = c.nonce →
      c.resolves v.voting_for →
      c.insert_vote v = Except.ok { c with votes := alInsert v.chash v c.votes }) ∧
    (∀ (c : Core) (v : Vote) (c2 : Core), Reachable c →
      alGet v.source c.vote_map = none →
      c.insert_vote v = Except.ok c2 →
      (∀ h, c2.is_notarized h = c.is_notarized h) ∧
      c2.get_lnc_tips = c.get_lnc_tips ∧
      c2.get_finalized = c.get_finalized) := by
  constructor
  · intro c v hsig hnonce hres
    unfold Core.insert_vote
    have hcond : ((alGet v.voting_for c.vote_solicits).isNone &&
        (alGet v.voting_for c.valid_proposals).isNone) = false := by
      rcases hres with hr | hr
      · cases hg : alGet v.voting_for c.vote_solicits with
        | none => rw [hg] at hr; simp at hr
        | some s => simp [hg]
      · cases hg : alGet v.voting_for c.valid_proposals with
        | none => rw [hg] at hr; simp at hr
        | some s => simp [hg]
    simp [hsig, hnonce, hcond]
  · intro c v c2 hR hw hok
    obtain ⟨_, _, _, hc2⟩ := insert_vote_ok hok
    subst hc2
    have inv := reachable_inv hR
    have hnot : ∀ h, Core.is_notarized
        { c with votes := alInsert v.chash v c.votes } h = c.is_notarized h := by
      intro h
      unfold Core.is_notarized
      rw [filter_weight_sum, filter_weight_sum,
        weight_sum_alInsert h c.vote_map v c.votes inv.vote_keys hw]
    exact ⟨hnot, lnc_tips_congr rfl rfl hnot, get_finalized_congr rfl rfl hnot⟩

/-- A properly signed vote from source 9, which holds no weight in the
running example's vote map. -/
def exOutsiderVote : Vote :=
  { nonce := 0, voting_for := (exProposal 0).chash, source := 9,
    signature := sigSign 9 (Vote.chash
      { nonce := 0, voting_for := (exProposal 0).chash, source := 9,
        signature := 0 }) }

/-- Closed witness for C10: admitting the weightless outsider vote into
the running example changes nothing about finalization. -/
theorem c10_witness :
    ((exChain 0).insVoteS exOutsiderVote).get_finalized = (exChain 0).get_finalized :=
  (c10_outside_votes.2 (exChain 0) exOutsiderVote
    ((exChain 0).insVoteS exOutsiderVote) (exChain_reachable 0) (by decide)
    (by rfl)).2.2

lemma foldr_max_le {m : Nat} : ∀ {l : List Nat}, (∀ x ∈ l, x ≤ m) → l.foldr max 0 ≤ m := by
  intro l
  induction l with
  | nil => intro _; exact Nat.zero_le m
  | cons a rest ih =>
    intro hb
    simp only [List.foldr_cons]
    exact max_le (hb a (List.mem_cons_self _ _))
      (ih fun x hx => hb x (List.mem_cons_of_mem _ hx))

lemma foldr_max_eq {m : Nat} : ∀ {l : List Nat}, m ∈ l → (∀ x ∈ l, x ≤ m) →
    l.foldr max 0 = m := by
  intro l
  induction l with
  | nil => intro hm; simp at hm
  | cons a rest ih =>
    intro hm hb
    simp only [List.foldr_cons]
    rcases List.mem_cons.mp hm with hm | hm
    · subst hm
      exact max_eq_left (foldr_max_le fun x hx => hb x (List.mem_cons_of_mem _ hx))
    · rw [ih hm fun x hx => hb x (List.mem_cons_of_mem _ hx)]
      exact max_eq_right (hb a (List.mem_cons_self _ _))

lemma takeWhile_eq_filter_desc (m : Nat) :
    ∀ (l : List (HashVal × Nat)), l.Pairwise (fun a b => b.2 ≤ a.2) →
    (∀ x ∈ l, x.2 ≤ m) →
    l.takeWhile (fun s => s.2 == m) = l.filter (fun s => s.2 == m) := by
  intro l
  induction l with
  | nil => intro _ _; rfl
  | cons a rest ih =>
    intro hp hb
    rcases List.pairwise_cons.mp hp with ⟨ha, hrest⟩
    by_cases hm : a.2 = m
    · simp only [List.takeWhile_cons, List.filter_cons, hm, beq_self_eq_true,
        if_pos trivial]
      rw [ih hrest fun x hx => hb x (List.mem_cons_of_mem _ hx)]
    · have hne : (a.2 == m) = false := beq_eq_false_iff_ne.mpr hm
      simp only [List.takeWhile_cons, hne, Bool.false_eq_true, if_false,
        List.filter_cons, cond_false]
      have hfil : rest.filter (fun s => s.2 == m) = [] := by
        rw [List.filter_eq_nil]
        intro x hx
        have h1 : x.2 ≤ a.2 := ha x hx
        have h2 : x.2 ≤ m := hb x (List.mem_cons_of_mem _ hx)
        have h3 : a.2 ≤ m := hb a (List.mem_cons_self _ _)
        simp only [beq_iff_eq]
        omega
      rw [hfil]

/-- Fuel adequacy condition for the back-pointer walks at `h`: if `h`
resolves to a solicit, its tick is below the fuel. -/
def solTickLt (c : Core) (h : HashVal) (n : Nat) : Prop :=
  match alGet h c.vote_solicits with
  | some s => s.tick < n
  | none => True

lemma sol_tick_le_sum {c : Core} {k : HashVal} {s : Solicit}
    (hg : alGet k c.vote_solicits = some s) :
    s.tick ≤ (c.vote_solicits.map (fun e => e.2.tick)).sum := by
  have hmem : (k, s) ∈ c.vote_solicits := alGet_mem hg
  have hmem2 : s.tick ∈ c.vote_solicits.map (fun e => e.2.tick) :=
    List.mem_map_of_mem (fun e => e.2.tick) hmem
  exact List.single_le_sum (fun x _ => Nat.zero_le x) _ hmem2

lemma solTickLt_of_sum_lt {c : Core} {h : HashVal} {n : Nat}
    (hn : (c.vote_solicits.map (fun e => e.2.tick)).sum < n) : solTickLt c h n := by
  unfold solTickLt
  cases hg : alGet h c.vote_solicits with
  | none => trivial
  | some s => exact lt_of_le_of_lt (sol_tick_le_sum hg) hn

lemma lookup_len_of_no_sol (c : Core) (h : HashVal)
    (hnone : alGet h c.vote_solicits = none) (m : Nat) : c.lookup_len m h = 0 := by
  cases m with
  | zero => rfl
  | succ k =>
    simp only [Core.lookup_len, hnone]
    split <;> rfl

/-- The solicit at `h`'s parent also satisfies the fuel condition one
step down, by the strictly-decreasing-tick invariant. -/
lemma solTickLt_parent {c : Core} (hInv : CoreInv c) {h : HashVal} {s : Solicit}
    {n : Nat} (hg : alGet h c.vote_solicits = some s) (hn : s.tick < n + 1) :
    solTickLt c s.previous n := by
  obtain ⟨pt, hpt, hlt⟩ := hInv.sol_parent (h, s) (alGet_mem hg)
  have hlt2 : pt < s.tick := hlt
  unfold solTickLt
  unfold Core.parent_tick at hpt
  cases hg2 : alGet s.previous c.vote_solicits with
  | none => trivial
  | some s2 =>
    rw [hg2] at hpt
    injection hpt with hpt
    omega

/-- `lookup_len` is fuel-insensitive once the fuel dominates the tick of
the solicit being walked (on invariant-satisfying states). -/
lemma lookup_len_stable {c : Core} (hInv : CoreInv c) :
    ∀ (n m : Nat) (h : HashVal), solTickLt c h n → solTickLt c h m →
    c.lookup_len n h = c.lookup_len m h := by
  intro n
  induction n with
  | zero =>
    intro m h h1 h2
    unfold solTickLt at h1
    cases hg : alGet h c.vote_solicits with
    | some s => rw [hg] at h1; omega
    | none => rw [lookup_len_of_no_sol c h hg, lookup_len_of_no_sol c h hg]
  | succ n ih =>
    intro m h h1 h2
    cases hg : alGet h c.vote_solicits with
    | none => rw [lookup_len_of_no_sol c h hg, lookup_len_of_no_sol c h hg]
    | some s =>
      unfold solTickLt at h1 h2
      rw [hg] at h1 h2
      cases m with
      | zero => omega
      | succ m' =>
        simp only [Core.lookup_len, hg]
        split
        · rfl
        · have hp1 : solTickLt c s.previous n := solTickLt_parent hInv hg h1
          have hp2 : solTickLt c s.previous m' := solTickLt_parent hInv hg h2
          rw [ih m' s.previous hp1 hp2]

lemma walk_fuel_cond (c : Core) (h : HashVal) : solTickLt c h c.walk_fuel := by
  apply solTickLt_of_sum_lt
  unfold Core.walk_fuel
  omega

lemma walk_fuel_cond_pred (c : Core) (h : HashVal) :
    solTickLt c h (((c.vote_solicits.map (fun e => e.2.tick)).sum) + 1) := by
  apply solTickLt_of_sum_lt
  omega

lemma lookup_len_succ (c : Core) (fuel : Nat) (h : HashVal) :
    c.lookup_len (fuel + 1) h =
      if (alGet h c.valid_proposals).isSome = true then 0
      else
        match alGet h c.vote_solicits with
        | some s => c.lookup_len fuel s.previous + 1
        | none => 0 := rfl

/-- On invariant states, a proposal entry has chain length 0. -/
lemma lenOf_proposal {c : Core} (hInv : CoreInv c) {e : HashVal × Proposal}
    (he : e ∈ c.valid_proposals) : c.lenOf e.1 = 0 := by
  have hsome : (alGet e.1 c.valid_proposals).isSome = true :=
    alGet_isSome_of_mem_fst (List.mem_map_of_mem _ he)
  have hfe : c.walk_fuel = ((c.vote_solicits.map (fun e => e.2.tick)).sum + 1) + 1 := rfl
  unfold Core.lenOf
  rw [hfe, lookup_len_succ]
  simp [hsome]

/-- On invariant states, a solicit entry has its parent's chain length
plus one. -/
lemma lenOf_solicit {c : Core} (hInv : CoreInv c) {e : HashVal × Solicit}
    (he : e ∈ c.vote_solicits) : c.lenOf e.1 = c.lenOf e.2.previous + 1 := by
  have hsome : (alGet e.1 c.vote_solicits).isSome = true :=
    alGet_isSome_of_mem_fst (List.mem_map_of_mem _ he)
  cases hg : alGet e.1 c.vote_solicits with
  | none => rw [hg] at hsome; simp at hsome
  | some s =>
    have hkey1 : e.1 = Solicit.chash e.2 := hInv.sol_keys e he
    have hkey2 : e.1 = Solicit.chash s := hInv.sol_keys _ (alGet_mem hg)
    obtain ⟨_, htk, hprev, _⟩ := solicit_chash_inj (hkey2.symm.trans hkey1)
    have hnp : alGet e.1 c.valid_proposals = none := by
      cases hq : alGet e.1 c.valid_proposals with
      | none => rfl
      | some q =>
        have : e.1 = Proposal.chash q := hInv.prop_keys _ (alGet_mem hq)
        exact absurd (this.symm.trans hkey1) (prop_chash_ne_sol_chash q e.2)
    have hfe : c.walk_fuel = ((c.vote_solicits.map (fun f => f.2.tick)).sum + 1) + 1 := rfl
    unfold Core.lenOf
    rw [hfe]
    rw [lookup_len_succ c _ e.1]
    rw [hnp]
    simp only [Option.isSome_none, Bool.false_eq_true, if_false, hg]
    rw [hprev]
    rw [lookup_len_stable hInv _ (((c.vote_solicits.map (fun f => f.2.tick)).sum + 1) + 1)
      e.2.previous (walk_fuel_cond_pred c e.2.previous)
      (solTickLt_of_sum_lt (by omega))]

/-- The maximum chain length over all notarized admitted hashes
(0 when there are none) — the spec's take-the-maximum step. -/
def lncMaxLen (c : Core) : Nat :=
  ((c.lnc_candidates.filter (fun h => c.is_notarized h)).map
    (fun h => c.lenOf h)).foldr max 0

lemma lnc_sorted_desc_perm (c : Core) : c.lnc_sorted_desc.Perm c.hash_and_len := by
  unfold Core.lnc_sorted_desc
  exact (List.reverse_perm _).trans (List.perm_insertionSort _ _)

lemma lnc_sorted_desc_pairwise (c : Core) :
    c.lnc_sorted_desc.Pairwise (fun a b => b.2 ≤ a.2) := by
  unfold Core.lnc_sorted_desc
  rw [List.pairwise_reverse]
  haveI h1 : IsTotal (HashVal × Nat) (fun a b => a.2 ≤ b.2) :=
    ⟨fun a b => Nat.le_total a.2 b.2⟩
  haveI h2 : IsTrans (HashVal × Nat) (fun a b => a.2 ≤ b.2) :=
    ⟨fun a b c hab hbc => le_trans hab hbc⟩
  exact List.sorted_insertionSort _ _

lemma lnc_head_bound {c : Core} {top : HashVal × Nat}
    (hhead : c.lnc_sorted_desc.head? = some top) :
    ∀ x ∈ c.lnc_sorted_desc, x.2 ≤ top.2 := by
  cases hrev : c.lnc_sorted_desc with
  | nil => rw [hrev] at hhead; exact absurd hhead (by simp)
  | cons a tl =>
    rw [hrev] at hhead
    injection hhead with hhead
    subst hhead
    have := lnc_sorted_desc_pairwise c
    rw [hrev] at this
    rcases List.pairwise_cons.mp this with ⟨ha, _⟩
    intro x hx
    rcases List.mem_cons.mp hx with hx | hx
    · exact le_of_eq (congrArg Prod.snd hx)
    · exact ha x hx

lemma lnc_head_max {c : Core} {top : HashVal × Nat}
    (hhead : c.lnc_sorted_desc.head? = some top) : lncMaxLen c = top.2 := by
  have htop : top ∈ c.lnc_sorted_desc := by
    cases hrev : c.lnc_sorted_desc with
    | nil => rw [hrev] at hhead; exact absurd hhead (by simp)
    | cons a tl =>
      rw [hrev] at hhead
      injection hhead with hhead
      exact hhead ▸ List.mem_cons_self _ _
  have hsnd : c.hash_and_len.map (fun x => x.2) =
      (c.lnc_candidates.filter (fun h => c.is_notarized h)).map (fun h => c.lenOf h) := by
    unfold Core.hash_and_len
    rw [List.map_map]
    rfl
  unfold lncMaxLen
  rw [← hsnd]
  apply foldr_max_eq
  · exact List.mem_map_of_mem _ (((lnc_sorted_desc_perm c).mem_iff).mp htop)
  · intro x hx
    rcases List.mem_map.mp hx with ⟨y, hy, hxy⟩
    subst hxy
    exact lnc_head_bound hhead y (((lnc_sorted_desc_perm c).mem_iff).mpr hy)

/-- Membership characterization of the LNC tips: exactly the notarized
admitted hashes of maximal chain length (when anything is notarized). -/
lemma mem_lnc_tips_iff (c : Core) (h : HashVal) :
    h ∈ c.get_lnc_tips ↔
      (h ∈ c.lnc_candidates ∧ c.is_notarized h = true ∧ c.lenOf h = lncMaxLen c ∧
        ∃ h2 ∈ c.lnc_candidates, c.is_notarized h2 = true) := by
  unfold Core.get_lnc_tips
  cases hhead : c.lnc_sorted_desc.head? with
  | none =>
    simp only [List.not_mem_nil, false_iff]
    rintro ⟨hc, hn, -, -⟩
    have hmem : (h, c.lenOf h) ∈ c.hash_and_len := by
      unfold Core.hash_and_len
      exact List.mem_map_of_mem _ (List.mem_filter.mpr ⟨hc, hn⟩)
    have hnil : c.lnc_sorted_desc = [] := by
      cases hrev : c.lnc_sorted_desc with
      | nil => rfl
      | cons a tl => rw [hrev] at hhead; exact absurd hhead (by simp)
    have := ((lnc_sorted_desc_perm c).symm.mem_iff).mp hmem
    rw [hnil] at this
    exact absurd this (List.not_mem_nil _)
  | some top =>
    have htake : c.lnc_sorted_desc.takeWhile (fun s => s.2 == top.2) =
        c.lnc_sorted_desc.filter (fun s => s.2 == top.2) :=
      takeWhile_eq_filter_desc top.2 _ (lnc_sorted_desc_pairwise c) (lnc_head_bound hhead)
    have hmax := lnc_head_max hhead
    rw [List.mem_insertionSort, htake]
    constructor
    · intro hmem
      rcases List.mem_map.mp hmem with ⟨x, hx, hxh⟩
      rcases List.mem_filter.mp hx with ⟨hxs, hxtop⟩
      have hxL : x ∈ c.hash_and_len := ((lnc_sorted_desc_perm c).mem_iff).mp hxs
      unfold Core.hash_and_len at hxL
      rcases List.mem_map.mp hxL with ⟨h2, hh2, hx2⟩
      rcases List.mem_filter.mp hh2 with ⟨hc2, hn2⟩
      have hx1 : x.1 = h2 := by rw [← hx2]
      have hx2' : x.2 = c.lenOf h2 := by rw [← hx2]
      subst hxh
      rw [hx1]
      refine ⟨hc2, hn2, ?_, h2, hc2, hn2⟩
      have hxt : x.2 = top.2 := by simpa using hxtop
      rw [← hx2', hxt, hmax]
    · rintro ⟨hc, hn, hlen, -⟩
      have hmem : (h, c.lenOf h) ∈ c.hash_and_len := by
        unfold Core.hash_and_len
        exact List.mem_map_of_mem _ (List.mem_filter.mpr ⟨hc, hn⟩)
      have hs : (h, c.lenOf h) ∈ c.lnc_sorted_desc :=
        ((lnc_sorted_desc_perm c).symm.mem_iff).mp hmem
      have hfil : (h, c.lenOf h) ∈
          c.lnc_sorted_desc.filter (fun s => s.2 == top.2) := by
        refine List.mem_filter.mpr ⟨hs, ?_⟩
        simp only [beq_iff_eq]
        rw [hlen, hmax]
      exact List.mem_map.mpr ⟨(h, c.lenOf h), hfil, rfl⟩

lemma lnc_tips_sorted (c : Core) : List.Sorted (fun a b => a ≤ b) c.get_lnc_tips := by
  unfold Core.get_lnc_tips
  cases hhead : c.lnc_sorted_desc.head? with
  | none => exact List.sorted_nil
  | some top =>
    haveI h1 : IsTotal HashVal (fun a b => a ≤ b) := ⟨Nat.le_total⟩
    haveI h2 : IsTrans HashVal (fun a b => a ≤ b) := ⟨fun a b c => Nat.le_trans⟩
    exact List.sorted_insertionSort _ _

lemma lnc_tips_nil (c : Core)
    (hnone : ∀ h ∈ c.lnc_candidates, c.is_notarized h = false) :
    c.get_lnc_tips = [] := by
  have hfil : c.lnc_candidates.filter (fun h => c.is_notarized h) = [] :=
    List.filter_eq_nil_iff.mpr (fun a ha => by simp [hnone a ha])
  have hL : c.hash_and_len = [] := by
    unfold Core.hash_and_len
    rw [hfil]
    rfl
  have hS : c.lnc_sorted_desc = [] := by
    have hperm := lnc_sorted_desc_perm c
    rw [hL] at hperm
    exact hperm.eq_nil
  unfold Core.get_lnc_tips
  rw [hS]
  rfl

/-- Claim C5: `get_lnc_tips` returns exactly the notarized admitted
hashes of maximal chain length, in ascending hash order, and the empty
list when nothing is notarized; chain length is 0 for admitted
proposals and parent-length-plus-one for admitted solicits. -/
theorem c5_lnc_tips (c : Core) (hR : Reachable c) :
    (∀ h, h ∈ c.get_lnc_tips ↔
      (h ∈ c.lnc_candidates ∧ c.is_notarized h = true ∧ c.lenOf h = lncMaxLen c ∧
        ∃ h2 ∈ c.lnc_candidates, c.is_notarized h2 = true)) ∧
    List.Sorted (fun a b => a ≤ b) c.get_lnc_tips ∧
    ((∀ h ∈ c.lnc_candidates, c.is_notarized h = false) → c.get_lnc_tips = []) ∧
    (∀ e ∈ c.valid_proposals, c.lenOf e.1 = 0) ∧
    (∀ e ∈ c.vote_solicits, c.lenOf e.1 = c.lenOf e.2.previous + 1) := by
  have inv := reachable_inv hR
  exact ⟨mem_lnc_tips_iff c, lnc_tips_sorted c, lnc_tips_nil c,
    fun e he => lenOf_proposal inv he, fun e he => lenOf_solicit inv he⟩

/-- Closed witness for C5 at the running example. -/
theorem c5_witness : List.Sorted (fun a b => a ≤ b) (exChain 0).get_lnc_tips :=
  (c5_lnc_tips (exChain 0) (exChain_reachable 0)).2.1

lemma list_contains_iff {l : List Nat} {a : Nat} : l.contains a = true ↔ a ∈ l :=
  List.elem_iff

/-- The claim's window condition on a descending tick path `T`:
some index `i` has `T[i] = T[i+1] + 1 = T[i+2] + 2`. -/
def threeConsecAt (l : List Nat) : Prop :=
  ∃ i a, l[i]? = some (a + 2) ∧ l[i + 1]? = some (a + 1) ∧ l[i + 2]? = some a

lemma getElem?_one {α : Type} (a b : α) (l : List α) :
    (a :: b :: l)[(0 : Nat) + 1]? = some b := by
  rw [List.getElem?_cons_succ, List.getElem?_cons_zero]

lemma getElem?_two {α : Type} (a b c : α) (l : List α) :
    (a :: b :: c :: l)[(0 : Nat) + 2]? = some c := by
  have h : (0 : Nat) + 2 = 0 + 1 + 1 := rfl
  rw [h, List.getElem?_cons_succ, List.getElem?_cons_succ, List.getElem?_cons_zero]

lemma threeConsecAt_short {l : List Nat} (hlen : l.length ≤ 2) : ¬ threeConsecAt l := by
  rintro ⟨i, a, -, -, h3⟩
  obtain ⟨hlt, -⟩ := List.getElem?_eq_some_iff.mp h3
  omega

lemma hasThreeConsec_iff : ∀ (l : List Nat), hasThreeConsec l = true ↔ threeConsecAt l
  | [] => by
    constructor
    · intro h; exact absurd h (by simp [hasThreeConsec])
    · intro h; exact absurd h (threeConsecAt_short (by simp))
  | [a] => by
    constructor
    · intro h; exact absurd h (by simp [hasThreeConsec])
    · intro h; exact absurd h (threeConsecAt_short (by simp))
  | [a, b] => by
    constructor
    · intro h; exact absurd h (by simp [hasThreeConsec])
    · intro h; exact absurd h (threeConsecAt_short (by simp))
  | a :: b :: c :: rest => by
    have ih := hasThreeConsec_iff (b :: c :: rest)
    have hstep : hasThreeConsec (a :: b :: c :: rest) =
        (((a == b + 1) && (b == c + 1)) || hasThreeConsec (b :: c :: rest)) := rfl
    rw [hstep, Bool.or_eq_true, Bool.and_eq_true, beq_iff_eq, beq_iff_eq, ih]
    constructor
    · rintro (⟨hab, hbc⟩ | ⟨i, x, h1, h2, h3⟩)
      · refine ⟨0, c, ?_, ?_, ?_⟩
        · rw [List.getElem?_cons_zero]
          exact congrArg some (by omega)
        · rw [getElem?_one]
          exact congrArg some (by omega)
        · rw [getElem?_two]
      · exact ⟨i + 1, x, by simpa [List.getElem?_cons_succ] using h1,
          by simpa [List.getElem?_cons_succ] using h2,
          by simpa [List.getElem?_cons_succ] using h3⟩
    · rintro ⟨i, x, h1, h2, h3⟩
      cases i with
      | zero =>
        left
        rw [List.getElem?_cons_zero] at h1
        rw [getElem?_one] at h2
        rw [getElem?_two] at h3
        injection h1 with h1
        injection h2 with h2
        injection h3 with h3
        omega
      | succ j =>
        right
        exact ⟨j, x, by simpa [List.getElem?_cons_succ] using h1,
          by simpa [List.getElem?_cons_succ] using h2,
          by simpa [List.getElem?_cons_succ] using h3⟩

lemma hasThreeConsec_cons_dup (a : Nat) (l : List Nat) :
    hasThreeConsec (a :: a :: l) = hasThreeConsec (a :: l) := by
  cases l with
  | nil => rfl
  | cons b rest =>
    have hstep : hasThreeConsec (a :: a :: b :: rest) =
        (((a == a + 1) && (a == b + 1)) || hasThreeConsec (a :: b :: rest)) := rfl
    rw [hstep]
    have hne : (a == a + 1) = false := by simp
    rw [hne]
    simp

lemma tickPath_succ (c : Core) (fuel : Nat) (h : HashVal) :
    c.tickPath (fuel + 1) h =
      match alGet h c.vote_solicits with
      | some s => (c.tickPath fuel s.previous).map (fun r => (s.tick :: r.1, r.2))
      | none =>
        match alGet h c.valid_proposals with
        | some p => some ([p.tick], p)
        | none => none := rfl

lemma tickPath_isSome {c : Core} (hInv : CoreInv c) :
    ∀ (n : Nat) (h : HashVal),
    (match alGet h c.vote_solicits with
     | some s => s.tick < n
     | none => (alGet h c.valid_proposals).isSome = true ∧ 0 < n) →
    (c.tickPath n h).isSome = true := by
  intro n
  induction n with
  | zero =>
    intro h hcond
    cases hg : alGet h c.vote_solicits with
    | some s => rw [hg] at hcond; omega
    | none => rw [hg] at hcond; omega
  | succ n ih =>
    intro h hcond
    rw [tickPath_succ]
    cases hg : alGet h c.vote_solicits with
    | some s =>
      rw [hg] at hcond
      obtain ⟨pt, hpt, hlt⟩ := hInv.sol_parent (h, s) (alGet_mem hg)
      have hlt2 : pt < s.tick := hlt
      have hrec : (c.tickPath n s.previous).isSome = true := by
        apply ih
        unfold Core.parent_tick at hpt
        cases hg2 : alGet s.previous c.vote_solicits with
        | some s2 =>
          rw [hg2] at hpt
          injection hpt with hpt
          omega
        | none =>
          rw [hg2] at hpt
          cases hp : alGet s.previous c.valid_proposals with
          | none => rw [hp] at hpt; exact absurd hpt (by simp)
          | some q => exact ⟨by simp [hp], by omega⟩
      show (Option.map (fun r => (s.tick :: r.1, r.2))
        (c.tickPath n s.previous)).isSome = true
      cases hx : c.tickPath n s.previous with
      | none => rw [hx] at hrec; exact absurd hrec (by simp)
      | some r => rfl
    | none =>
      rw [hg] at hcond
      obtain ⟨hps, -⟩ := hcond
      cases hp : alGet h c.valid_proposals with
      | none => rw [hp] at hps; simp at hps
      | some p => simp

lemma findSome?_some {α β : Type} {f : α → Option β} {l : List α} {b : β}
    (h : l.findSome? f = some b) : ∃ a ∈ l, f a = some b := by
  induction l with
  | nil => rw [List.findSome?_nil] at h; exact absurd h (by simp)
  | cons a rest ih =>
    rw [List.findSome?_cons] at h
    cases hf : f a with
    | some v =>
      rw [hf] at h
      exact ⟨a, List.mem_cons_self _ _, by rw [hf]; exact h⟩
    | none =>
      rw [hf] at h
      obtain ⟨x, hx, hfx⟩ := ih h
      exact ⟨x, List.mem_cons_of_mem _ hx, hfx⟩

lemma hasThreeConsec_false_of_not {l : List Nat} (h : ¬ threeConsecAt l) :
    hasThreeConsec l = false := by
  cases hb : hasThreeConsec l with
  | false => rfl
  | true => exact absurd ((hasThreeConsec_iff l).mp hb) h

lemma tickPath_sol_isSome {c : Core} (hInv : CoreInv c) {t : HashVal} {s : Solicit}
    (hg : alGet t c.vote_solicits = some s) :
    (c.tickPath c.walk_fuel t).isSome = true := by
  apply tickPath_isSome hInv
  rw [hg]
  exact lt_of_le_of_lt (sol_tick_le_sum hg) (by unfold Core.walk_fuel; omega)

/-- The checked tick list of a solicit tip starts with the tip's own
tick, so the seeded duplicate is harmless. -/
lemma tickPath_sol_shape {c : Core} {t : HashVal} {s : Solicit} {r : List Nat × Proposal}
    (hg : alGet t c.vote_solicits = some s)
    (hpath : c.tickPath c.walk_fuel t = some r) :
    ∃ rest, r.1 = s.tick :: rest := by
  have hfe : c.walk_fuel = ((c.vote_solicits.map (fun f => f.2.tick)).sum + 1) + 1 := rfl
  rw [hfe, tickPath_succ, hg] at hpath
  obtain ⟨r0, -, hr⟩ := Option.map_eq_some'.mp hpath
  exact ⟨r0.1, by rw [← hr]⟩

lemma finCheck_no_sol {c : Core} {t : HashVal}
    (hg : alGet t c.vote_solicits = none) : c.finCheck t = none := by
  unfold Core.finCheck
  rw [hg]

lemma finCheck_sol {c : Core} {t : HashVal} {s : Solicit} {r : List Nat × Proposal}
    (hg : alGet t c.vote_solicits = some s)
    (hpath : c.tickPath c.walk_fuel t = some r) :
    c.finCheck t = if hasThreeConsec r.1 then some r.2 else none := by
  obtain ⟨rest, hr1⟩ := tickPath_sol_shape hg hpath
  unfold Core.finCheck
  rw [hg, hpath]
  have hdup : hasThreeConsec (s.tick :: r.1) = hasThreeConsec r.1 := by
    rw [hr1]
    exact hasThreeConsec_cons_dup s.tick rest
  show (if hasThreeConsec (s.tick :: r.1) = true then some r.2 else none) =
    if hasThreeConsec r.1 = true then some r.2 else none
  rw [hdup]

lemma tickPath_prop_only {c : Core} {t : HashVal} {q : Proposal}
    (hg : alGet t c.vote_solicits = none)
    (hq : alGet t c.valid_proposals = some q) :
    c.tickPath c.walk_fuel t = some ([q.tick], q) := by
  have hfe : c.walk_fuel = ((c.vote_solicits.map (fun f => f.2.tick)).sum + 1) + 1 := rfl
  rw [hfe, tickPath_succ, hg, hq]

/-- Claim C2: `get_finalized` returns some proposal exactly when an LNC
tip's descending tick path back to its root proposal contains three
consecutive ticks `T[i] = T[i+1] + 1 = T[i+2] + 2`; the proposal
returned is the root of such a path, and on reachable states every tip
has a total path. -/
theorem c2_get_finalized (c : Core) (hR : Reachable c) :
    (∀ p, c.get_finalized = some p →
      ∃ t ∈ c.get_lnc_tips, ∃ ticks, c.tickPath c.walk_fuel t = some (ticks, p) ∧
        threeConsecAt ticks) ∧
    (∀ t ∈ c.get_lnc_tips, ∃ ticks p, c.tickPath c.walk_fuel t = some (ticks, p)) ∧
    (c.get_finalized = none ↔
      ∀ t ∈ c.get_lnc_tips, ∀ ticks p,
        c.tickPath c.walk_fuel t = some (ticks, p) → ¬ threeConsecAt ticks) := by
  have inv := reachable_inv hR
  have htot : ∀ t ∈ c.get_lnc_tips,
      ∃ ticks p, c.tickPath c.walk_fuel t = some (ticks, p) := by
    intro t ht
    obtain ⟨hc, -, -, -⟩ := (mem_lnc_tips_iff c t).mp ht
    cases hg : alGet t c.vote_solicits with
    | some s =>
      have := tickPath_sol_isSome inv hg
      cases hx : c.tickPath c.walk_fuel t with
      | none => rw [hx] at this; exact absurd this (by simp)
      | some r =>
        obtain ⟨tks, pp⟩ := r
        exact ⟨tks, pp, rfl⟩
    | none =>
      unfold Core.lnc_candidates at hc
      rcases List.mem_append.mp hc with hc | hc
      · have hps : (alGet t c.valid_proposals).isSome = true :=
          alGet_isSome_of_mem_fst hc
        cases hq : alGet t c.valid_proposals with
        | none => rw [hq] at hps; exact absurd hps (by simp)
        | some q => exact ⟨[q.tick], q, tickPath_prop_only hg hq⟩
      · have : (alGet t c.vote_solicits).isSome = true := alGet_isSome_of_mem_fst hc
        rw [hg] at this
        exact absurd this (by simp)
  refine ⟨?_, htot, ?_, ?_⟩
  · intro p hfin
    unfold Core.get_finalized at hfin
    obtain ⟨t, htc, hft⟩ := findSome?_some hfin
    obtain ⟨hmem, hcont⟩ := List.mem_filter.mp htc
    have ht : t ∈ c.get_lnc_tips := list_contains_iff.mp hcont
    cases hg : alGet t c.vote_solicits with
    | none => rw [finCheck_no_sol hg] at hft; exact absurd hft (by simp)
    | some s =>
      have hsome := tickPath_sol_isSome inv hg
      cases hx : c.tickPath c.walk_fuel t with
      | none => rw [hx] at hsome; exact absurd hsome (by simp)
      | some r =>
        rw [finCheck_sol hg hx] at hft
        cases hw : hasThreeConsec r.1 with
        | false => rw [hw] at hft; exact absurd hft (by simp)
        | true =>
          simp only [hw, if_true] at hft
          have hp2 : r.2 = p := by injection hft
          exact ⟨t, ht, r.1, by rw [hx, ← hp2, Prod.mk.eta],
            (hasThreeConsec_iff r.1).mp hw⟩
  · intro hnone t ht ticks p hpath hwin
    cases hg : alGet t c.vote_solicits with
    | some s =>
      have htc : t ∈ (c.vote_solicits.map (fun e => e.1)).filter
          (fun h => (c.get_lnc_tips).contains h) :=
        List.mem_filter.mpr ⟨mem_fst_of_alGet_isSome (by simp [hg]),
          list_contains_iff.mpr ht⟩
      have hfc : c.finCheck t = none := by
        unfold Core.get_finalized at hnone
        exact List.findSome?_eq_none.mp hnone t htc
      rw [finCheck_sol hg hpath] at hfc
      rw [(hasThreeConsec_iff ticks).mpr hwin] at hfc
      exact absurd hfc (by simp)
    | none =>
      obtain ⟨hc, -, -, -⟩ := (mem_lnc_tips_iff c t).mp ht
      unfold Core.lnc_candidates at hc
      rcases List.mem_append.mp hc with hc | hc
      · have hps : (alGet t c.valid_proposals).isSome = true :=
          alGet_isSome_of_mem_fst hc
        cases hq : alGet t c.valid_proposals with
        | none => rw [hq] at hps; exact absurd hps (by simp)
        | some q =>
          rw [tickPath_prop_only hg hq] at hpath
          injection hpath with hpath
          have hticks : ticks = [q.tick] := by
            have := congrArg Prod.fst hpath
            exact this.symm
          rw [hticks] at hwin
          exact absurd hwin (threeConsecAt_short (by simp))
      · have : (alGet t c.vote_solicits).isSome = true := alGet_isSome_of_mem_fst hc
        rw [hg] at this
        exact absurd this (by simp)
  · intro hall
    unfold Core.get_finalized
    rw [List.findSome?_eq_none]
    intro a ha
    obtain ⟨hmem, hcont⟩ := List.mem_filter.mp ha
    have halnc : a ∈ c.get_lnc_tips := list_contains_iff.mp hcont
    cases hg : alGet a c.vote_solicits with
    | none => exact finCheck_no_sol hg
    | some s =>
      have hsome := tickPath_sol_isSome inv hg
      cases hx : c.tickPath c.walk_fuel a with
      | none => rw [hx] at hsome; exact absurd hsome (by simp)
      | some r =>
        rw [finCheck_sol hg hx]
        have hnot := hall a halnc r.1 r.2 (by rw [hx])
        rw [hasThreeConsec_false_of_not hnot]
        rfl

/-- Closed witness for C2: the running example finalizes its root
proposal through a tip whose tick path shows three consecutive ticks. -/
theorem c2_witness :
    ∃ t ∈ (exChain 0).get_lnc_tips, ∃ ticks,
      (exChain 0).tickPath (exChain 0).walk_fuel t = some (ticks, exProposal 0) ∧
      threeConsecAt ticks :=
  (c2_get_finalized (exChain 0) (exChain_reachable 0)).1 (exProposal 0) (by decide)

/-- Does a diff message carry a Vote? -/
def isVoteMsg : DiffMessage → Bool
  | DiffMessage.Vote _ => true
  | _ => false

/-- The canonical hash of the node a Proposal or Solicit diff message
carries (none for votes). -/
def nodeHash : DiffMessage → Option HashVal
  | DiffMessage.Proposal p => some p.chash
  | DiffMessage.Solicit s => some s.chash
  | DiffMessage.Vote _ => none

lemma mem_get_diff {c : Core} {their : HashVal → Option HashVal} {m : DiffMessage}
    (hm : m ∈ c.get_diff their) :
    (∃ e ∈ c.valid_proposals, m = DiffMessage.Proposal e.2) ∨
    (∃ e ∈ c.vote_solicits, m = DiffMessage.Solicit e.2) ∨
    (∃ v : Vote, m = DiffMessage.Vote v) := by
  unfold Core.get_diff at hm
  rw [List.mem_insertionSort] at hm
  unfold Core.diff_unsorted at hm
  rcases List.mem_append.mp hm with hm | hm <;>
    rcases List.mem_flatMap.mp hm with ⟨e, he, hme⟩
  · split at hme
    · rcases List.mem_append.mp hme with hme | hme
      · split at hme
        · rcases List.mem_singleton.mp hme with hme
          exact Or.inl ⟨e, he, hme⟩
        · exact absurd hme (List.not_mem_nil m)
      · rcases List.mem_map.mp hme with ⟨v, -, hv⟩
        exact Or.inr (Or.inr ⟨v, hv.symm⟩)
    · exact absurd hme (List.not_mem_nil m)
  · split at hme
    · rcases List.mem_append.mp hme with hme | hme
      · split at hme
        · rcases List.mem_singleton.mp hme with hme
          exact Or.inr (Or.inl ⟨e, he, hme⟩)
        · exact absurd hme (List.not_mem_nil m)
      · rcases List.mem_map.mp hme with ⟨v, -, hv⟩
        exact Or.inr (Or.inr ⟨v, hv.symm⟩)
    · exact absurd hme (List.not_mem_nil m)

lemma get_diff_sorted (c : Core) (their : HashVal → Option HashVal) :
    List.Sorted (fun a b => diffKey a ≤ diffKey b) (c.get_diff their) := by
  unfold Core.get_diff
  haveI h1 : IsTotal DiffMessage (fun a b => diffKey a ≤ diffKey b) :=
    ⟨fun a b => Nat.le_total _ _⟩
  haveI h2 : IsTrans DiffMessage (fun a b => diffKey a ≤ diffKey b) :=
    ⟨fun a b c hab hbc => le_trans hab hbc⟩
  exact List.sorted_insertionSort _ _

lemma diffKey_lt_of_nonvote {c : Core} {their : HashVal → Option HashVal}
    {m : DiffMessage} (hm : m ∈ c.get_diff their)
    (hbp : ∀ e ∈ c.valid_proposals, e.2.tick < U64MAX)
    (hbs : ∀ e ∈ c.vote_solicits, e.2.tick < U64MAX)
    (hnv : isVoteMsg m = false) : diffKey m < U64MAX := by
  rcases mem_get_diff hm with ⟨e, he, hme⟩ | ⟨e, he, hme⟩ | ⟨v, hme⟩
  · subst hme; exact hbp e he
  · subst hme; exact hbs e he
  · subst hme; exact absurd hnv (by simp [isVoteMsg])

/-- A Proposal or Solicit in the diff whose hash is the `previous` of an
admitted solicit `s` carries a tick strictly below `s.tick`. -/
lemma node_tick_lt {c : Core} (hInv : CoreInv c) {s : Solicit} {m : DiffMessage}
    (hs : ∃ e ∈ c.vote_solicits, s = e.2)
    (hmm : (∃ e ∈ c.valid_proposals, m = DiffMessage.Proposal e.2) ∨
      (∃ e ∈ c.vote_solicits, m = DiffMessage.Solicit e.2))
    (hhash : nodeHash m = some s.previous) :
    diffKey m < s.tick := by
  obtain ⟨e0, he0, hse⟩ := hs
  obtain ⟨pt, hpt, hlt⟩ := hInv.sol_parent e0 he0
  rw [← hse] at hpt hlt
  unfold Core.parent_tick at hpt
  rcases hmm with ⟨e, he, hme⟩ | ⟨e, he, hme⟩
  · subst hme
    simp only [nodeHash, Option.some_inj] at hhash
    have hkey : e.1 = Proposal.chash e.2 := hInv.prop_keys e he
    cases hg : alGet s.previous c.vote_solicits with
    | some s2 =>
      have : s.previous = Solicit.chash s2 := hInv.sol_keys _ (alGet_mem hg)
      exact absurd (hhash.trans this) (prop_chash_ne_sol_chash e.2 s2)
    | none =>
      rw [hg] at hpt
      cases hq : alGet s.previous c.valid_proposals with
      | none => rw [hq] at hpt; exact absurd hpt (by simp)
      | some q =>
        rw [hq] at hpt
        simp only [Option.map_some', Option.some_inj] at hpt
        have hkq : s.previous = Proposal.chash q := hInv.prop_keys _ (alGet_mem hq)
        have : e.2.tick = q.tick :=
          (proposal_chash_inj (hhash ▸ hkq : Proposal.chash e.2 = Proposal.chash q)).2.1
        show e.2.tick < s.tick
        omega
  · subst hme
    simp only [nodeHash, Option.some_inj] at hhash
    cases hg : alGet s.previous c.vote_solicits with
    | none =>
      rw [hg] at hpt
      cases hq : alGet s.previous c.valid_proposals with
      | none => rw [hq] at hpt; exact absurd hpt (by simp)
      | some q =>
        have hkq : s.previous = Proposal.chash q := hInv.prop_keys _ (alGet_mem hq)
        exact absurd (hhash.trans hkq) (Ne.symm (prop_chash_ne_sol_chash q e.2))
    | some s2 =>
      rw [hg] at hpt
      injection hpt with hpt
      have hk2 : s.previous = Solicit.chash s2 := hInv.sol_keys _ (alGet_mem hg)
      have : e.2.tick = s2.tick :=
        (solicit_chash_inj (hhash ▸ hk2 : Solicit.chash e.2 = Solicit.chash s2)).2.1
      show e.2.tick < s.tick
      omega

/-- Claim C8: on reachable states whose ticks stay below the `u64::MAX`
sentinel, `get_diff` output is sorted by ascending tick key with all
Votes keyed `u64::MAX`; hence every Vote follows every Proposal and
Solicit, and a Solicit's parent node, if present in the same diff,
appears strictly before it. -/
theorem c8_diff_order (c : Core) (hR : Reachable c)
    (hbp : ∀ e ∈ c.valid_proposals, e.2.tick < U64MAX)
    (hbs : ∀ e ∈ c.vote_solicits, e.2.tick < U64MAX)
    (their : HashVal → Option HashVal) :
    List.Sorted (fun a b => diffKey a ≤ diffKey b) (c.get_diff their) ∧
    (∀ v : Vote, diffKey (DiffMessage.Vote v) = U64MAX) ∧
    List.Pairwise (fun a b => isVoteMsg a = true → isVoteMsg b = true)
      (c.get_diff their) ∧
    (∀ (i j : Fin (c.get_diff their).length) (s : Solicit),
      (c.get_diff their).get j = DiffMessage.Solicit s →
      nodeHash ((c.get_diff their).get i) = some s.previous → i < j) := by
  have inv := reachable_inv hR
  have hsorted := get_diff_sorted c their
  refine ⟨hsorted, fun v => rfl, ?_, ?_⟩
  · refine List.Pairwise.imp_of_mem ?_ hsorted
    intro a b ha hb hkey hva
    cases hvb : isVoteMsg b with
    | true => rfl
    | false =>
      have hblt : diffKey b < U64MAX := diffKey_lt_of_nonvote hb hbp hbs hvb
      have hka : diffKey a = U64MAX := by
        cases a with
        | Vote v => rfl
        | Proposal p => exact absurd hva (by simp [isVoteMsg])
        | Solicit s => exact absurd hva (by simp [isVoteMsg])
      omega
  · intro i j s hj hi
    by_contra hij
    have hji : j ≤ i := not_lt.mp hij
    have hjm : (c.get_diff their).get j ∈ c.get_diff their := List.get_mem _ j.1 j.2
    have him : (c.get_diff their).get i ∈ c.get_diff their := List.get_mem _ i.1 i.2
    have hsval : ∃ e ∈ c.vote_solicits, s = e.2 := by
      rcases mem_get_diff hjm with ⟨e, he, hme⟩ | ⟨e, he, hme⟩ | ⟨v, hme⟩
      · rw [hj] at hme; exact absurd hme (by simp)
      · rw [hj] at hme
        injection hme with hme
        exact ⟨e, he, hme⟩
      · rw [hj] at hme; exact absurd hme (by simp)
    have hmval : (∃ e ∈ c.valid_proposals,
          (c.get_diff their).get i = DiffMessage.Proposal e.2) ∨
        (∃ e ∈ c.vote_solicits,
          (c.get_diff their).get i = DiffMessage.Solicit e.2) := by
      rcases mem_get_diff him with hc | hc | ⟨v, hme⟩
      · exact Or.inl hc
      · exact Or.inr hc
      · rw [hme] at hi; exact absurd hi (by simp [nodeHash])
    have htick : diffKey ((c.get_diff their).get i) < s.tick :=
      node_tick_lt inv hsval hmval hi
    rcases eq_or_lt_of_le hji with hji | hji
    · rw [← hji] at hi
      rw [hj] at hi
      simp only [nodeHash, Option.some_inj] at hi
      exact absurd hi (Solicit.chash_ne_previous s)
    · have := (List.pairwise_iff_get.mp hsorted) j i hji
      rw [hj] at this
      show False
      have : s.tick ≤ diffKey ((c.get_diff their).get i) := this
      omega

/-- Closed witness for C8: the diff the running example sends an empty
peer is sorted by the tick key. -/
theorem c8_witness :
    List.Sorted (fun a b => diffKey a ≤ diffKey b)
      ((exChain 0).get_diff (fun _ => none)) :=
  (c8_diff_order (exChain 0) (exChain_reachable 0) (by decide) (by decide)
    (fun _ => none)).1
